import Mathlib

/-
Verification of the exam seat-allocation engine of the `miniproject`
repository (files `seating_logic.py`, `seating_logic_firstyear.py`,
`seating_logic_university.py`).

The Python code is shallowly embedded as executable Lean functions:
  * MongoDB reads become function arguments (`List Student`, `List Room`);
    the cursor `.sort(...)` calls are modelled with `List.insertionSort`.
  * MongoDB writes (`update_one` / `update_many`) become an explicit write
    log carried in the result values.
  * `random.choice` / `random.shuffle` are modelled against an arbitrary
    stream of natural numbers (`RNG`); "for every run" is quantified as
    "for every stream".
  * Python `dict` values keyed by group are association lists (`Groups`),
    preserving insertion order exactly as CPython dicts do.
  * The result records additionally carry verification-only ghost data
    (pop traces, per-column selection traces, grid cell indices on
    university writes); the ghost data never influences the computation.
-/

/-! ## Randomness model -/

/-- A stream of arbitrary naturals standing for the random generator. -/
abbrev RNG := Nat → Nat

def rngHead (g : RNG) : Nat := g 0

def rngTail (g : RNG) : RNG := fun i => g (i + 1)

/-- Model of Python `random.choice(l)`: the stream's next number picks an
index modulo the length.  Returns `none` exactly when `l` is empty (the
source never calls `random.choice` on an empty list). -/
def choice {α : Type} (l : List α) (g : RNG) : Option α :=
  l.get? (rngHead g % l.length)

/-- Model of Python `random.shuffle`: a Fisher-Yates style rearrangement
driven by the stream.  Quantifying over all streams covers every possible
shuffle outcome. -/
def shuffleWith {α : Type} : RNG → List α → List α × RNG
  | g, [] => ([], g)
  | g, a :: as =>
    let l := a :: as
    let i := rngHead g % l.length
    let rest := shuffleWith (rngTail g) (l.eraseIdx i)
    (l.getD i a :: rest.1, rest.2)
termination_by g l => l.length
decreasing_by
  simp only [List.length_eraseIdx]
  have hi : rngHead g % (a :: as).length < (a :: as).length :=
    Nat.mod_lt _ (by simp)
  simp only [hi, if_pos]
  omega

/-! ## Data model

`Student` carries the document fields the engine reads and writes:
`student_id`, `dept`, `year`, `div`, and the two mutable allocation fields
`room_no` / `seat_no` (both `None` for an unallocated student).
`Room` carries `room_no`, `capacity`, `no_of_rows` (`rows`) and
`no_of_columns` (`cols`). -/

structure Student where
  student_id : String
  dept : String
  year : Int
  div : String
  room_no : Option String
  seat_no : Option String
deriving DecidableEq

structure Room where
  room_no : String
  capacity : Int
  rows : Nat
  cols : Nat
deriving DecidableEq

/-! ## Seat labels

`_seat_label` embeds the Python
`f"{chr(ord('A') + col_index)}{row_index + 1}"` (present identically in
`seating_logic.py`, `seating_logic_firstyear.py` and inlined as
`f"{chr(65 + c)}{r + 1}"` in `seating_logic_university.py`).
`natToDec` embeds Python `str` on non-negative integers (decimal digits,
most significant first). -/

def decDigit (d : Nat) : Char := Char.ofNat (48 + d)

def natToDec (n : Nat) : List Char :=
  if _h : n < 10 then [decDigit n]
  else natToDec (n / 10) ++ [decDigit (n % 10)]
termination_by n
decreasing_by
  exact Nat.div_lt_self (by omega) (by omega)

def _seat_label (col_index row_index : Nat) : String :=
  ⟨Char.ofNat (65 + col_index) :: natToDec (row_index + 1)⟩

/-- Decimal decoding, inverse to `natToDec` on digit strings (proof tool
for seat-label injectivity). -/
def decodeDec (l : List Char) : Nat :=
  l.foldl (fun a c => a * 10 + (c.toNat - 48)) 0

/-! ## Group queues

Python `dict`/`defaultdict(deque)` keyed by cohort: an association list in
insertion order.  `glookup` is `d[k]` (empty for a missing key, as
`defaultdict` yields an empty deque), `gpop` is `d[k].popleft()` on the
queue itself, `gInsert` is the grouping step `groups[key].append(student)`,
performed in cursor order by `buildGroups`. -/

abbrev Groups (κ : Type) := List (κ × List Student)

def glookup {κ : Type} [DecidableEq κ] (gs : Groups κ) (k : κ) : List Student :=
  match gs.find? (fun e => decide (e.1 = k)) with
  | some e => e.2
  | none => []

def gpop {κ : Type} [DecidableEq κ] (gs : Groups κ) (k : κ) : Groups κ :=
  gs.map (fun e => if e.1 = k then (e.1, e.2.tail) else e)

def gInsert {κ : Type} [DecidableEq κ] (key : Student → κ) (gs : Groups κ)
    (s : Student) : Groups κ :=
  if gs.any (fun e => decide (e.1 = key s)) then
    gs.map (fun e => if e.1 = key s then (e.1, e.2 ++ [s]) else e)
  else gs ++ [(key s, [s])]

def buildGroups {κ : Type} [DecidableEq κ] (key : Student → κ)
    (l : List Student) : Groups κ :=
  l.foldl (gInsert key) []

/-- Total number of queued students across all groups. -/
def groupsTotal {κ : Type} (gs : Groups κ) : Nat :=
  (gs.map (fun e => e.2.length)).sum

/-! ## The seat grid -/

abbrev Grid := List (List (Option Student))

def gridGet (grid : Grid) (r c : Nat) : Option Student :=
  (grid.getD r []).getD c none

def gridSet (grid : Grid) (r c : Nat) (s : Student) : Grid :=
  grid.set r ((grid.getD r []).set c (some s))

/-- `grid[0][col_index - 1] if col_index > 0 else None`. -/
def leftNbr0 (grid : Grid) (c : Nat) : Option Student :=
  if c > 0 then gridGet grid 0 (c - 1) else none

/-- `grid[row_index][col_index - 1] if col_index > 0 else None`. -/
def leftNbrAt (grid : Grid) (r c : Nat) : Option Student :=
  if c > 0 then gridGet grid r (c - 1) else none

/-! ## Generic column-by-column grid filler

The regular (`seating_logic.py`) and first-year
(`seating_logic_firstyear.py`) fillers share the exact same loop skeleton
and differ only in the cohort-selection logic; the skeleton is defined
once, parametrised by the start-of-column selection (`start`), the
mid-column re-selection (`mid`) and the assignment record constructor
(`mk`).  `Pop` entries and `ColStart` entries are ghost traces recording,
respectively, each `popleft` and each start-of-column selection. -/

structure Pop (κ : Type) where
  key : κ
  student : Student
  col_index : Nat
  row_index : Nat
deriving DecidableEq

structure ColStart (κ : Type) where
  col_index : Nat
  left0 : Option Student
  chosen : κ
  fellBack : Bool
  hadStudents : Bool
deriving DecidableEq

/-- The two cell coordinates in emission order, lexicographically. -/
def cellLt {κ : Type} (p q : Pop κ) : Prop :=
  p.col_index < q.col_index ∨ (p.col_index = q.col_index ∧ p.row_index < q.row_index)

structure FillRes (κ α : Type) where
  grid : Grid
  qs : Groups κ
  g : RNG
  out : List α
  pops : List (Pop κ)
  starts : List (ColStart κ)

/-- Inner loop `for row_index in range(rows)` of `_assign_seats_for_hall`
(both files): if the chosen cohort's queue is empty, re-select via `mid`
(breaking the row loop when `mid` finds no cohort, without consuming the
stream), then pop the front student, write the grid cell and emit the
assignment. -/
def fillRows {κ α : Type} [DecidableEq κ]
    (mid : Groups κ → Grid → Nat → Nat → RNG → Option (κ × RNG))
    (mk : Nat → Nat → Student → α) :
    Nat → Nat → Nat → κ → Grid → Groups κ → RNG → FillRes κ α
  | 0, _r, _c, _chosen, grid, qs, g => ⟨grid, qs, g, [], [], []⟩
  | n + 1, r, c, chosen, grid, qs, g =>
    match (if (glookup qs chosen).isEmpty then mid qs grid r c g
           else some (chosen, g)) with
    | none => ⟨grid, qs, g, [], [], []⟩
    | some (k, g1) =>
      match glookup qs k with
      | [] => ⟨grid, qs, g1, [], [], []⟩
      | s :: _ =>
        let res := fillRows mid mk n (r + 1) c k (gridSet grid r c s) (gpop qs k) g1
        ⟨res.grid, res.qs, res.g, mk c r s :: res.out,
          ⟨k, s, c, r⟩ :: res.pops, []⟩

/-- Outer loop `for col_index in range(cols)`: select the column's cohort
via `start` (breaking the column loop when no cohort remains), then run the
row loop and continue with the next column. -/
def fillCols {κ α : Type} [DecidableEq κ]
    (start : Groups κ → Grid → Nat → RNG → Option (κ × Bool × RNG))
    (mid : Groups κ → Grid → Nat → Nat → RNG → Option (κ × RNG))
    (mk : Nat → Nat → Student → α) (rows : Nat) :
    Nat → Nat → Grid → Groups κ → RNG → FillRes κ α
  | 0, _c, grid, qs, g => ⟨grid, qs, g, [], [], []⟩
  | n + 1, c, grid, qs, g =>
    match start qs grid c g with
    | none => ⟨grid, qs, g, [], [], []⟩
    | some (chosen, fb, g1) =>
      let r1 := fillRows mid mk rows 0 c chosen grid qs g1
      let r2 := fillCols start mid mk rows n (c + 1) r1.grid r1.qs r1.g
      ⟨r2.grid, r2.qs, r2.g, r1.out ++ r2.out, r1.pops ++ r2.pops,
        ⟨c, leftNbr0 grid c, chosen, fb, !(glookup qs chosen).isEmpty⟩ :: r2.starts⟩

/-! ## Generic allocation driver loop

The per-run room loop shared by `allocate_exam_seating_for_db` and
`allocate_firstyear_seating`: fill each hall in order, threading the
remaining queues and the stream, skip rooms that received no assignment,
extend the `all_hall_assignments` dict and append one
`update_one({"student_id": ...}, {"$set": {room_no, seat_no}})` write per
assignment. -/

structure SeatWrite where
  student_id : String
  room_no : String
  seat_no : String
deriving DecidableEq

structure RunAcc (κ α : Type) where
  halls : List (String × List α)
  writes : List SeatWrite
  pops : List (Pop κ)
  starts : List (ColStart κ)
  qs : Groups κ
  g : RNG

/-- `all_hall_assignments[room_no].extend(assignments)` on a
`defaultdict(list)` in first-touch insertion order. -/
def hallsCons {α : Type} (rn : String) (out : List α)
    (hs : List (String × List α)) : List (String × List α) :=
  if hs.any (fun e => decide (e.1 = rn)) then
    hs.map (fun e => if e.1 = rn then (e.1, out ++ e.2) else e)
  else (rn, out) :: hs

def roomsLoop {κ α : Type} [DecidableEq κ]
    (hall : Room → Groups κ → RNG → FillRes κ α)
    (wOf : Room → α → SeatWrite) :
    List Room → Groups κ → RNG → RunAcc κ α
  | [], qs, g => ⟨[], [], [], [], qs, g⟩
  | room :: rest, qs, g =>
    let h := hall room qs g
    if h.out.isEmpty then roomsLoop hall wOf rest h.qs h.g
    else
      let acc := roomsLoop hall wOf rest h.qs h.g
      ⟨hallsCons room.room_no h.out acc.halls,
        h.out.map (wOf room) ++ acc.writes,
        h.pops ++ acc.pops, h.starts ++ acc.starts, acc.qs, acc.g⟩

/-! ## Sorting keys (MongoDB `.sort(...)` model)

MongoDB compares string keys lexicographically by code point; `charsLe`
embeds that comparison as a structurally recursive Boolean (the library
`String.le` is the same relation — `strLe_iff` below — but its decision
procedure does not reduce inside the kernel, which `decide`-checked
concrete runs need). -/

def charsLe : List Char → List Char → Bool
  | [], _ => true
  | _ :: _, [] => false
  | a :: as, b :: bs =>
    if a.toNat < b.toNat then true
    else if b.toNat < a.toNat then false
    else charsLe as bs

def strLe (a b : String) : Prop := charsLe a.data b.data = true

instance : DecidableRel strLe :=
  fun a b => inferInstanceAs (Decidable (charsLe a.data b.data = true))

/-- Python `str.upper()` (`.upper()` on the department names): upper-case
every character.  ASCII data, on which this coincides with Python, is all
the strategies use it for. -/
def upper (s : String) : String := ⟨s.data.map Char.toUpper⟩

def regSortKey (s : Student) : Lex (Int × Lex (String × Lex (String × String))) :=
  toLex (s.year, toLex (s.dept, toLex (s.div, s.student_id)))

/-- `.sort([("year",1),("dept",1),("div",1),("student_id",1)])`. -/
def regCursorLe (s t : Student) : Prop := regSortKey s ≤ regSortKey t

instance : DecidableRel regCursorLe :=
  fun s t => inferInstanceAs (Decidable (regSortKey s ≤ regSortKey t))

instance : IsTotal Student regCursorLe := ⟨fun s t => le_total (regSortKey s) (regSortKey t)⟩

instance : IsTrans Student regCursorLe := ⟨fun _ _ _ h1 h2 => le_trans h1 h2⟩

/-- `.sort("student_id", 1)`. -/
def sidLe (s t : Student) : Prop := strLe s.student_id t.student_id

instance : DecidableRel sidLe :=
  fun s t => inferInstanceAs (Decidable (charsLe s.student_id.data t.student_id.data = true))

/-- `.sort("room_no", 1)` on the rooms collection. -/
def roomLe (a b : Room) : Prop := strLe a.room_no b.room_no

instance : DecidableRel roomLe :=
  fun a b => inferInstanceAs (Decidable (charsLe a.room_no.data b.room_no.data = true))

/-! ## Regular strategy (`seating_logic.py`) -/

namespace Reg

/-- `GroupKey = Tuple[int, str, str]`: `(year, dept, div)`. -/
abbrev GroupKey := Int × String × String

def groupKeyOf (s : Student) : GroupKey := (s.year, s.dept, s.div)

/-- The horizontal rule of lines 50 and 71: the candidate key may sit next
to the neighbor iff `str(gk[1]) != left["dept"] or int(gk[0]) != left["year"]`
(no neighbor
means no constraint). -/
def keyOk (gk : GroupKey) (nbr : Option Student) : Bool :=
  match nbr with
  | none => true
  | some s => decide (gk.2.1 ≠ s.dept) || decide (gk.1 ≠ s.year)

/-- Line 47-51 / line 66: the non-empty cohorts among `all_group_keys`. -/
def nonEmptyKeys (all_group_keys : List GroupKey) (qs : Groups GroupKey) :
    List GroupKey :=
  all_group_keys.filter (fun gk => !(glookup qs gk).isEmpty)

/-- Lines 46-51: `valid_keys` — non-empty cohorts that do not clash
horizontally with the neighbor student. -/
def validKeys (all_group_keys : List GroupKey) (qs : Groups GroupKey)
    (nbr : Option Student) : List GroupKey :=
  all_group_keys.filter (fun gk => !(glookup qs gk).isEmpty && keyOk gk nbr)

/-- Lines 43-60: candidate cohorts compatible with `grid[0][col-1]`, the
single `any group with students left` fallback, then `random.choice`;
`none` = `break` out of the column loop. -/
def startSelect (all_group_keys : List GroupKey) (qs : Groups GroupKey)
    (grid : Grid) (c : Nat) (g : RNG) : Option (GroupKey × Bool × RNG) :=
  if (validKeys all_group_keys qs (leftNbr0 grid c)).isEmpty then
    match choice (nonEmptyKeys all_group_keys qs) g with
    | none => none
    | some k => some (k, true, rngTail g)
  else
    match choice (validKeys all_group_keys qs (leftNbr0 grid c)) g with
    | none => none
    | some k => some (k, false, rngTail g)

/-- Lines 64-74: mid-column re-selection — the non-empty cohorts
(`valid_keys`, line 66) filtered by compatibility with `grid[row][col-1]`
(`row_valid`, lines 69-72), `break` (= `none`) if empty. -/
def midSelect (all_group_keys : List GroupKey) (qs : Groups GroupKey)
    (grid : Grid) (r c : Nat) (g : RNG) : Option (GroupKey × RNG) :=
  match choice ((nonEmptyKeys all_group_keys qs).filter
      (fun gk => keyOk gk (leftNbrAt grid r c))) g with
  | none => none
  | some k => some (k, rngTail g)

/-- The assignment dict of lines 78-86. -/
structure Assign where
  student_id : String
  room_no : String
  seat_no : String
  col_index : Nat
  row_index : Nat
  dept : String
  year : Int
deriving DecidableEq

def mkAssign (room_no : String) (c r : Nat) (s : Student) : Assign :=
  ⟨s.student_id, room_no, _seat_label c r, c, r, s.dept, s.year⟩

def _assign_seats_for_hall (room : Room) (all_group_keys : List GroupKey)
    (remaining_groups : Groups GroupKey) (g : RNG) : FillRes GroupKey Assign :=
  fillCols (startSelect all_group_keys) (midSelect all_group_keys)
    (mkAssign room.room_no) room.rows room.cols 0
    (List.replicate room.rows (List.replicate room.cols none)) remaining_groups g

/-- Lines 13-22: group the unallocated students (sorted by year, dept, div,
student_id) into per-key FIFO queues. -/
def _fetch_unallocated_students (students : List Student) : Groups GroupKey :=
  buildGroups groupKeyOf
    (List.insertionSort regCursorLe (students.filter (fun s => s.room_no.isNone)))

/-- `all_group_keys = [k for k, v in remaining_groups.items() if v]`. -/
def all_group_keys_of (gs : Groups GroupKey) : List GroupKey :=
  (gs.filter (fun e => !e.2.isEmpty)).map (fun e => e.1)

/-- Lines 90-118 (`allocate_exam_seating_for_db`): guard, shuffle the
rooms, loop over halls threading the queues, persist one write per
assignment. -/
def allocate_exam_seating_for_db (students : List Student) (rooms : List Room)
    (g : RNG) : RunAcc GroupKey Assign :=
  if (_fetch_unallocated_students students).isEmpty || rooms.isEmpty then
    ⟨[], [], [], [], _fetch_unallocated_students students, g⟩
  else
    roomsLoop
      (fun room qs g2 => _assign_seats_for_hall room
        (all_group_keys_of (_fetch_unallocated_students students)) qs g2)
      (fun room a => ⟨a.student_id, room.room_no, a.seat_no⟩)
      (shuffleWith g rooms).1 (_fetch_unallocated_students students)
      (shuffleWith g rooms).2

end Reg

/-! ## First-year strategy (`seating_logic_firstyear.py`) -/

namespace FY

/-- `GroupKey = str` (department name, upper-cased at grouping time). -/
abbrev GroupKey := String

def FORBIDDEN_PAIRS : List (String × String) := [("CSE", "AIML"), ("ECE", "EEE")]

/-- Lines 35-48.  `forbidden.issubset({a.upper(), b.upper()})` is embedded
as both components of the forbidden pair being members of the two-element
(upper-cased) set. -/
def is_compatible (dept_a dept_b : String) : Bool :=
  if dept_a = dept_b then false
  else if FORBIDDEN_PAIRS.any (fun f =>
      (decide (f.1 = upper dept_a) || decide (f.1 = upper dept_b)) &&
      (decide (f.2 = upper dept_a) || decide (f.2 = upper dept_b))) then false
  else true

/-- The department of a neighbor grid cell.
(When the cell is `None` Python would raise on the `["dept"]` subscript;
the embedding treats it as "no left neighbor" — the row-0 cell of an
already-processed column is in fact always filled.) -/
def deptOf (nbr : Option Student) : Option String :=
  nbr.map (fun s => s.dept)

/-- Tier 1 (lines 61-64 and 87): non-empty depts compatible with the
neighbor's dept. -/
def tier1Depts (all_group_keys : List GroupKey) (qs : Groups GroupKey)
    (nbr : Option Student) : List GroupKey :=
  all_group_keys.filter (fun gk => !(glookup qs gk).isEmpty &&
    (match deptOf nbr with
     | none => true
     | some d => is_compatible gk d))

/-- Tier 2 (line 68): non-empty depts different from the left dept. -/
def tier2Depts (all_group_keys : List GroupKey) (qs : Groups GroupKey)
    (nbr : Option Student) : List GroupKey :=
  all_group_keys.filter (fun gk => !(glookup qs gk).isEmpty &&
    decide (some gk ≠ deptOf nbr))

/-- Tier 3 (lines 72 and 91): any non-empty dept. -/
def nonEmptyDepts (all_group_keys : List GroupKey) (qs : Groups GroupKey) :
    List GroupKey :=
  all_group_keys.filter (fun gk => !(glookup qs gk).isEmpty)

/-- Lines 56-78: tier 1 (compatible with the dept of `grid[0][col-1]`),
tier 2 (any non-empty dept different from the left dept), tier 3 (any
non-empty dept), then `random.choice`; `none` = `break`.  The recorded
fallback flag is "tier 1 was empty". -/
def startSelect (all_group_keys : List GroupKey) (qs : Groups GroupKey)
    (grid : Grid) (c : Nat) (g : RNG) : Option (GroupKey × Bool × RNG) :=
  if (tier1Depts all_group_keys qs (leftNbr0 grid c)).isEmpty then
    if (tier2Depts all_group_keys qs (leftNbr0 grid c)).isEmpty then
      match choice (nonEmptyDepts all_group_keys qs) g with
      | none => none
      | some k => some (k, true, rngTail g)
    else
      match choice (tier2Depts all_group_keys qs (leftNbr0 grid c)) g with
      | none => none
      | some k => some (k, true, rngTail g)
  else
    match choice (tier1Depts all_group_keys qs (leftNbr0 grid c)) g with
    | none => none
    | some k => some (k, false, rngTail g)

/-- Lines 82-93: mid-column re-selection — tier 1 against the dept of
`grid[row][col-1]`, else directly any non-empty dept, `break` if none. -/
def midSelect (all_group_keys : List GroupKey) (qs : Groups GroupKey)
    (grid : Grid) (r c : Nat) (g : RNG) : Option (GroupKey × RNG) :=
  match choice (tier1Depts all_group_keys qs (leftNbrAt grid r c)) g with
  | some k => some (k, rngTail g)
  | none =>
    match choice (nonEmptyDepts all_group_keys qs) g with
    | none => none
    | some k => some (k, rngTail g)

/-- The assignment dict of lines 97-104 (no `year` field). -/
structure Assign where
  student_id : String
  room_no : String
  seat_no : String
  col_index : Nat
  row_index : Nat
  dept : String
deriving DecidableEq

def mkAssign (room_no : String) (c r : Nat) (s : Student) : Assign :=
  ⟨s.student_id, room_no, _seat_label c r, c, r, s.dept⟩

def _assign_seats_for_hall (room : Room) (all_group_keys : List GroupKey)
    (remaining_groups : Groups GroupKey) (g : RNG) : FillRes GroupKey Assign :=
  fillCols (startSelect all_group_keys) (midSelect all_group_keys)
    (mkAssign room.room_no) room.rows room.cols 0
    (List.replicate room.rows (List.replicate room.cols none)) remaining_groups g

/-- Lines 13-20: group by upper-cased department, cursor sorted by
`student_id`. -/
def _fetch_unallocated_students (students : List Student) : Groups GroupKey :=
  buildGroups (fun s => upper s.dept)
    (List.insertionSort sidLe (students.filter (fun s => s.room_no.isNone)))

/-- `all_group_keys = [k for k, v in remaining_groups.items() if v]`. -/
def all_group_keys_of (gs : Groups GroupKey) : List GroupKey :=
  (gs.filter (fun e => !e.2.isEmpty)).map (fun e => e.1)

/-- Lines 108-131 (`allocate_firstyear_seating`): guard, rooms in ascending
`room_no` order, loop over halls, persist writes. -/
def allocate_firstyear_seating (students : List Student) (rooms : List Room)
    (g : RNG) : RunAcc GroupKey Assign :=
  if (_fetch_unallocated_students students).isEmpty || rooms.isEmpty then
    ⟨[], [], [], [], _fetch_unallocated_students students, g⟩
  else
    roomsLoop
      (fun room qs g2 => _assign_seats_for_hall room
        (all_group_keys_of (_fetch_unallocated_students students)) qs g2)
      (fun room a => ⟨a.student_id, room.room_no, a.seat_no⟩)
      (List.insertionSort roomLe rooms) (_fetch_unallocated_students students) g

end FY

namespace FY

/-- Modelled from the spec: the claimed mid-column re-selection of the
first-year filler, which "re-runs the candidate-selection logic (steps
2-3)" with its full fallback tiers — tier 1 (compatible with the current
row's left neighbor), tier 2 (any non-empty cohort different from the left
neighbor), tier 3 (any non-empty cohort) — rather than the source's tier 1
followed directly by any non-empty cohort. -/
def midSelectSpec (all_group_keys : List GroupKey) (qs : Groups GroupKey)
    (grid : Grid) (r c : Nat) (g : RNG) : Option (GroupKey × RNG) :=
  match choice (tier1Depts all_group_keys qs (leftNbrAt grid r c)) g with
  | some k => some (k, rngTail g)
  | none =>
    match choice (tier2Depts all_group_keys qs (leftNbrAt grid r c)) g with
    | some k => some (k, rngTail g)
    | none =>
      match choice (nonEmptyDepts all_group_keys qs) g with
      | none => none
      | some k => some (k, rngTail g)

/-- Modelled from the spec: the first-year hall filler as the claim
describes it, identical to `_assign_seats_for_hall` except for the
mid-column re-selection. -/
def assign_seats_for_hall_spec (room : Room) (all_group_keys : List GroupKey)
    (remaining_groups : Groups GroupKey) (g : RNG) : FillRes GroupKey Assign :=
  fillCols (startSelect all_group_keys) (midSelectSpec all_group_keys)
    (mkAssign room.room_no) room.rows room.cols 0
    (List.replicate room.rows (List.replicate room.cols none)) remaining_groups g

end FY

/-! ## University strategy (`seating_logic_university.py`) -/

namespace Uni

/-- One `update_one({"_id": ...}, {"$set": {room_no, seat_no}})` write.
`dept`, `col_index`, `row_index` and `student` are verification-only ghost
fields recording the queue that was popped and the grid cell. -/
structure UniWrite where
  student_id : String
  room_no : String
  seat_no : String
  dept : String
  col_index : Nat
  row_index : Nat
  student : Student
deriving DecidableEq

structure UniState where
  dept_list : List String
  dept_queues : Groups String
  active_slots : Nat × Nat
  writes : List UniWrite

def slotGet (slots : Nat × Nat) (slot_idx : Nat) : Nat :=
  if slot_idx = 0 then slots.1 else slots.2

def slotSet (slots : Nat × Nat) (slot_idx : Nat) (v : Nat) : Nat × Nat :=
  if slot_idx = 0 then (v, slots.2) else (slots.1, v)

/-- Lines 63-70: scan the fixed department list from the current index with
wraparound for the first index (`next_idx = (dept_idx + i) % len`) that is
not the other slot's department and still has students. -/
def uniSearch (dept_list : List String) (qs : Groups String)
    (dept_idx other_idx : Nat) : Option Nat :=
  (List.range dept_list.length).findSome? (fun i =>
    if (dept_idx + i) % dept_list.length ≠ other_idx &&
        !(glookup qs (dept_list.getD ((dept_idx + i) % dept_list.length) "")).isEmpty then
      some ((dept_idx + i) % dept_list.length)
    else none)

/-- Pop the front student of `dept_list[idx]`'s queue, set the slot pointer
to `idx` when `upd` is set, and append the write for cell `(c, r)`. -/
def uniEmit (st : UniState) (slot_idx idx : Nat) (upd : Bool)
    (room_no : String) (c r : Nat) : UniState :=
  match glookup st.dept_queues (st.dept_list.getD idx "") with
  | [] => st
  | s :: _ =>
    { dept_list := st.dept_list
      dept_queues := gpop st.dept_queues (st.dept_list.getD idx "")
      active_slots := if upd then slotSet st.active_slots slot_idx idx else st.active_slots
      writes := st.writes ++
        [⟨s.student_id, room_no, _seat_label c r, st.dept_list.getD idx "", c, r, s⟩] }

/-- Lines 49-93, body of the two inner loops for one grid cell `(c, r)`:
column parity selects the slot (`slot_idx = c % 2`, the other slot is
`(c % 2 + 1) % 2`); if the slot's department is exhausted, waterfall-search
a replacement (excluding the other slot's department), else borrow the
other slot's department if it still has students, else `continue` (leave
the cell empty). -/
def uniCell (st : UniState) (room_no : String) (c r : Nat) : UniState :=
  if (glookup st.dept_queues
      (st.dept_list.getD (slotGet st.active_slots (c % 2)) "")).isEmpty then
    match uniSearch st.dept_list st.dept_queues (slotGet st.active_slots (c % 2))
        (slotGet st.active_slots ((c % 2 + 1) % 2)) with
    | some next_idx => uniEmit st (c % 2) next_idx true room_no c r
    | none =>
      if !(glookup st.dept_queues (st.dept_list.getD
          (slotGet st.active_slots ((c % 2 + 1) % 2)) "")).isEmpty then
        uniEmit st (c % 2) (slotGet st.active_slots ((c % 2 + 1) % 2)) true room_no c r
      else st
  else uniEmit st (c % 2) (slotGet st.active_slots (c % 2)) false room_no c r

/-- The cells of one room in visit order: columns left to right, rows top
to bottom. -/
def roomCells (room : Room) : List (String × Nat × Nat) :=
  (List.range room.cols).flatMap (fun c =>
    (List.range room.rows).map (fun r => (room.room_no, c, r)))

def uniCells (rooms : List Room) : List (String × Nat × Nat) :=
  rooms.flatMap roomCells

def uniRunCells (st : UniState) (cells : List (String × Nat × Nat)) : UniState :=
  cells.foldl (fun st2 cell => uniCell st2 cell.1 cell.2.1 cell.2.2) st

/-- `update_many({}, {"$set": {"room_no": None, "seat_no": None}})`. -/
def clearFields (s : Student) : Student :=
  { s with room_no := none, seat_no := none }

/-- Lines 13-25: clear every student's allocation (`update_many`), then
group all students, sorted by `student_id`, by department. -/
def uniDeptQueues (students : List Student) : Groups String :=
  buildGroups (fun s => s.dept) ((List.insertionSort sidLe students).map clearFields)

/-- Lines 27-29: `dept_list = sorted(list(dept_queues.keys()))`. -/
def uniDeptList (students : List Student) : List String :=
  List.insertionSort strLe ((uniDeptQueues students).map (fun e => e.1))

/-- Lines 34-38: slot 0 starts at index 0, slot 1 at index 1 (or 0 when a
single department exists). -/
def uniInitState (students : List Student) : UniState :=
  ⟨uniDeptList students, uniDeptQueues students,
    (0, if (uniDeptList students).length > 1 then 1 else 0), []⟩

/-- Lines 3-95 (`allocate_university_seating`): clear every student's
allocation, group all students (sorted by `student_id`) by department,
fix the alphabetical department list, initialise the two slot pointers,
process the rooms ascending by `room_no`, and return the status string
together with the write log. -/
def allocate_university_seating (students : List Student) (rooms : List Room) :
    String × List UniWrite :=
  if (uniDeptList students).isEmpty then ("No students found.", [])
  else
    ("Deterministic Allocation Complete.",
      (uniRunCells (uniInitState students)
        (uniCells (List.insertionSort roomLe rooms))).writes)

/-- Well-formedness carried through the run: distinct queue keys, every
queue key listed in `dept_list`, both slot pointers in range. -/
def UniWF (st : UniState) : Prop :=
  ((st.dept_queues.map (fun e => e.1)).Nodup) ∧
  (∀ e ∈ st.dept_queues, e.1 ∈ st.dept_list) ∧
  st.active_slots.1 < st.dept_list.length ∧
  st.active_slots.2 < st.dept_list.length

/-- The C8 invariant: if both slot pointers hold the same index, every
other department's queue is empty. -/
def SlotsInv (st : UniState) : Prop :=
  st.active_slots.1 = st.active_slots.2 →
    ∀ i < st.dept_list.length, i ≠ st.active_slots.1 →
      glookup st.dept_queues (st.dept_list.getD i "") = []

/-- The in-flight state of a university run after the first `n` grid cells
(in visit order: rooms ascending by `room_no`, columns left to right, rows
top to bottom) have been processed. -/
def uniMidState (students : List Student) (rooms : List Room) (n : Nat) : UniState :=
  uniRunCells (uniInitState students)
    ((uniCells (List.insertionSort roomLe rooms)).take n)

/-- `update_one({"_id": student["_id"]}, ...)`: set the seat fields of the
first student with the written identifier. -/
def setSeatFirst (l : List Student) (sid rn sn : String) : List Student :=
  match l with
  | [] => []
  | s :: rest =>
    if s.student_id = sid then
      { s with room_no := some rn, seat_no := some sn } :: rest
    else s :: setSeatFirst rest sid rn sn

/-- The student store after a university run: the unconditional clearing
of line 14 followed by the per-student seat writes. -/
def uniFinalStore (students : List Student) (rooms : List Room) : List Student :=
  (allocate_university_seating students rooms).2.foldl
    (fun st w => setSeatFirst st w.student_id w.room_no w.seat_no)
    (students.map clearFields)

end Uni

/-! ## Basic lemmas: the string order -/

theorem charsLe_iff_not_lex :
    ∀ (l m : List Char), charsLe l m = true ↔ ¬ List.Lex (· < ·) m l := by
  intro l
  induction l with
  | nil =>
    intro m
    simp only [charsLe]
    constructor
    · intro _ h
      cases h
    · intro _
      trivial
  | cons a as ih =>
    intro m
    cases m with
    | nil =>
      simp only [charsLe]
      constructor
      · intro h
        cases h
      · intro h
        exact absurd (List.Lex.nil) h
    | cons b bs =>
      simp only [charsLe]
      rcases Nat.lt_trichotomy a.toNat b.toNat with hab | hab | hab
      · rw [if_pos hab]
        constructor
        · intro _ h
          cases h with
          | cons h2 => omega
          | rel h2 =>
            have : b.toNat < a.toNat := h2
            omega
        · intro _
          rfl
      · have heq : a = b := Char.ext (UInt32.ext hab)
        subst heq
        rw [if_neg (by omega), if_neg (by omega)]
        rw [ih bs]
        constructor
        · intro h hlex
          cases hlex with
          | cons h2 => exact h h2
          | rel h2 =>
            have : a.toNat < a.toNat := h2
            omega
        · intro h hlex
          exact h (List.Lex.cons hlex)
      · rw [if_neg (by omega), if_pos hab]
        constructor
        · intro h
          cases h
        · intro h
          exact absurd (List.Lex.rel (show b < a from hab)) h

/-- The embedded comparison is the library's string order. -/
theorem strLe_iff (a b : String) : strLe a b ↔ a ≤ b := by
  show charsLe a.data b.data = true ↔ a ≤ b
  rw [charsLe_iff_not_lex]
  rw [String.le_iff_toList_le]
  exact @not_lt (List Char) _ (String.toList b) (String.toList a)

theorem strLe_total (a b : String) : strLe a b ∨ strLe b a := by
  rcases le_total a b with h | h
  · exact Or.inl ((strLe_iff a b).mpr h)
  · exact Or.inr ((strLe_iff b a).mpr h)

theorem strLe_trans {a b c : String} (h1 : strLe a b) (h2 : strLe b c) : strLe a c :=
  (strLe_iff a c).mpr (le_trans ((strLe_iff a b).mp h1) ((strLe_iff b c).mp h2))

theorem strLe_antisymm {a b : String} (h1 : strLe a b) (h2 : strLe b a) : a = b :=
  le_antisymm ((strLe_iff a b).mp h1) ((strLe_iff b a).mp h2)

instance : IsTotal Student sidLe := ⟨fun s t => strLe_total s.student_id t.student_id⟩

instance : IsTrans Student sidLe := ⟨fun _ _ _ h1 h2 => strLe_trans h1 h2⟩

instance : IsTotal Room roomLe := ⟨fun a b => strLe_total a.room_no b.room_no⟩

instance : IsTrans Room roomLe := ⟨fun _ _ _ h1 h2 => strLe_trans h1 h2⟩

instance : IsTotal String strLe := ⟨strLe_total⟩

instance : IsTrans String strLe := ⟨fun _ _ _ h1 h2 => strLe_trans h1 h2⟩

/-! ## Basic lemmas: random choice -/

theorem choice_eq_none {α : Type} (l : List α) (g : RNG) :
    choice l g = none ↔ l = [] := by
  unfold choice
  cases l with
  | nil => simp
  | cons a as =>
    simp only [List.get?_eq_none]
    constructor
    · intro h
      have h2 : rngHead g % (a :: as).length < (a :: as).length :=
        Nat.mod_lt _ (by simp)
      omega
    · intro h
      simp at h

theorem choice_mem {α : Type} {l : List α} {g : RNG} {x : α}
    (h : choice l g = some x) : x ∈ l :=
  List.get?_mem h

theorem choice_cons_eq_getD {α : Type} (a : α) (as : List α) (g : RNG) :
    choice (a :: as) g = some ((a :: as).getD (rngHead g % (a :: as).length) a) := by
  unfold choice
  have hlt : rngHead g % (a :: as).length < (a :: as).length := Nat.mod_lt _ (by simp)
  rw [List.getD_eq_getElem _ _ hlt, List.get?_eq_getElem?, List.getElem?_eq_getElem hlt]

/-! ## Basic lemmas: group queues -/

theorem glookup_nil {κ : Type} [DecidableEq κ] (k : κ) : glookup ([] : Groups κ) k = [] := rfl

theorem glookup_cons {κ : Type} [DecidableEq κ] (e : κ × List Student) (gs : Groups κ)
    (k : κ) : glookup (e :: gs) k = if e.1 = k then e.2 else glookup gs k := by
  unfold glookup
  by_cases h : e.1 = k
  · simp [List.find?_cons, h]
  · simp [List.find?_cons, h]

theorem glookup_not_mem {κ : Type} [DecidableEq κ] {gs : Groups κ} {k : κ}
    (h : k ∉ gs.map (fun e => e.1)) : glookup gs k = [] := by
  induction gs with
  | nil => rfl
  | cons e gs ih =>
    simp only [List.map_cons, List.mem_cons, not_or] at h
    rw [glookup_cons, if_neg (fun hc => h.1 hc.symm)]
    exact ih h.2

theorem glookup_ne_nil_mem {κ : Type} [DecidableEq κ] {gs : Groups κ} {k : κ}
    (h : glookup gs k ≠ []) : k ∈ gs.map (fun e => e.1) := by
  by_contra hk
  exact h (glookup_not_mem hk)

theorem gmem_any {κ : Type} [DecidableEq κ] (gs : Groups κ) (k : κ) :
    gs.any (fun e => decide (e.1 = k)) = true ↔ k ∈ gs.map (fun e => e.1) := by
  simp only [List.any_eq_true, decide_eq_true_eq, List.mem_map]

/-- Lookup after updating the queue of key `k0` in place, at a key `k ≠ k0`. -/
theorem glookup_mapUpd_ne {κ : Type} [DecidableEq κ] (f : List Student → List Student)
    (gs : Groups κ) {k0 k : κ} (hne : k ≠ k0) :
    glookup (gs.map (fun e => if e.1 = k0 then (e.1, f e.2) else e)) k = glookup gs k := by
  induction gs with
  | nil => rfl
  | cons e gs ih =>
    simp only [List.map_cons]
    by_cases h : e.1 = k0
    · rw [if_pos h, glookup_cons, glookup_cons]
      have h2 : ¬ e.1 = k := fun hc => hne (hc.symm.trans h)
      rw [if_neg h2, if_neg h2]
      exact ih
    · rw [if_neg h, glookup_cons, glookup_cons]
      by_cases h2 : e.1 = k
      · rw [if_pos h2, if_pos h2]
      · rw [if_neg h2, if_neg h2]
        exact ih

/-- Lookup after updating the queue of a present key `k0` in place, at `k0`. -/
theorem glookup_mapUpd_self {κ : Type} [DecidableEq κ] (f : List Student → List Student)
    {gs : Groups κ} {k0 : κ} (hmem : k0 ∈ gs.map (fun e => e.1)) :
    glookup (gs.map (fun e => if e.1 = k0 then (e.1, f e.2) else e)) k0 = f (glookup gs k0) := by
  induction gs with
  | nil => cases hmem
  | cons e gs ih =>
    simp only [List.map_cons]
    by_cases h : e.1 = k0
    · rw [if_pos h, glookup_cons, glookup_cons, if_pos h, if_pos h]
    · rw [if_neg h, glookup_cons, glookup_cons, if_neg h, if_neg h]
      simp only [List.map_cons, List.mem_cons] at hmem
      exact ih (hmem.resolve_left (fun hc => h hc.symm))

theorem glookup_gpop_self {κ : Type} [DecidableEq κ] (gs : Groups κ) (k : κ) :
    glookup (gpop gs k) k = (glookup gs k).tail := by
  by_cases hmem : k ∈ gs.map (fun e => e.1)
  · exact glookup_mapUpd_self (fun q => q.tail) hmem
  · unfold gpop
    rw [show gs.map (fun e => if e.1 = k then (e.1, e.2.tail) else e) = gs from ?_,
      glookup_not_mem hmem]
    · rfl
    · calc gs.map (fun e => if e.1 = k then (e.1, e.2.tail) else e)
          = gs.map id := by
            apply List.map_congr_left
            intro e he
            rw [if_neg (fun hc => hmem (List.mem_map.mpr ⟨e, he, hc⟩))]
            rfl
        _ = gs := List.map_id gs

theorem glookup_gpop_ne {κ : Type} [DecidableEq κ] (gs : Groups κ) {k k' : κ}
    (hne : k' ≠ k) : glookup (gpop gs k) k' = glookup gs k' :=
  glookup_mapUpd_ne (fun q => q.tail) gs hne

theorem gpop_keys {κ : Type} [DecidableEq κ] (gs : Groups κ) (k : κ) :
    (gpop gs k).map (fun e => e.1) = gs.map (fun e => e.1) := by
  unfold gpop
  rw [List.map_map]
  apply List.map_congr_left
  intro e _
  by_cases h : e.1 = k
  · simp [h]
  · simp [h]

theorem gpop_not_mem {κ : Type} [DecidableEq κ] {gs : Groups κ} {k : κ}
    (h : k ∉ gs.map (fun e => e.1)) : gpop gs k = gs := by
  unfold gpop
  calc gs.map (fun e => if e.1 = k then (e.1, e.2.tail) else e)
      = gs.map id := by
        apply List.map_congr_left
        intro e he
        rw [if_neg (fun hc => h (List.mem_map.mpr ⟨e, he, hc⟩))]
        rfl
    _ = gs := List.map_id gs

theorem glookup_entry_of_nodup {κ : Type} [DecidableEq κ] {gs : Groups κ}
    (hnd : (gs.map (fun e => e.1)).Nodup) {e : κ × List Student} (he : e ∈ gs) :
    glookup gs e.1 = e.2 := by
  induction gs with
  | nil => cases he
  | cons f gs ih =>
    simp only [List.map_cons, List.nodup_cons] at hnd
    rcases List.mem_cons.mp he with he | he
    · subst he
      simp [glookup_cons]
    · rw [glookup_cons]
      have hne : f.1 ≠ e.1 := fun hc => hnd.1 (hc ▸ (List.mem_map.mpr ⟨e, he, rfl⟩))
      rw [if_neg hne]
      exact ih hnd.2 he

theorem groupsTotal_nil {κ : Type} : groupsTotal ([] : Groups κ) = 0 := rfl

theorem groupsTotal_eq_zero {κ : Type} {gs : Groups κ} :
    groupsTotal gs = 0 ↔ ∀ e ∈ gs, e.2 = [] := by
  unfold groupsTotal
  rw [List.sum_eq_zero_iff]
  constructor
  · intro h e he
    exact List.length_eq_zero.mp (h e.2.length (List.mem_map.mpr ⟨e, he, rfl⟩))
  · intro h x hx
    rcases List.mem_map.mp hx with ⟨e, he, rfl⟩
    rw [h e he]
    rfl

theorem groupsTotal_zero_of_lookups {κ : Type} [DecidableEq κ] {gs : Groups κ}
    (hnd : (gs.map (fun e => e.1)).Nodup)
    (h : ∀ k ∈ gs.map (fun e => e.1), glookup gs k = []) :
    groupsTotal gs = 0 := by
  rw [groupsTotal_eq_zero]
  intro e he
  have := h e.1 (List.mem_map.mpr ⟨e, he, rfl⟩)
  rw [glookup_entry_of_nodup hnd he] at this
  exact this

theorem groupsTotal_gpop {κ : Type} [DecidableEq κ] {gs : Groups κ} {k : κ}
    {s : Student} {tl : List Student}
    (hnd : (gs.map (fun e => e.1)).Nodup) (h : glookup gs k = s :: tl) :
    groupsTotal (gpop gs k) + 1 = groupsTotal gs := by
  induction gs with
  | nil => simp [glookup_nil] at h
  | cons e gs ih =>
    simp only [List.map_cons, List.nodup_cons] at hnd
    rw [glookup_cons] at h
    unfold gpop groupsTotal
    simp only [List.map_cons, List.sum_cons]
    by_cases hk : e.1 = k
    · rw [if_pos hk] at h ⊢
      have hrest : gs.map (fun e => if e.1 = k then (e.1, e.2.tail) else e) = gs := by
        have : gpop gs k = gs := gpop_not_mem (hk ▸ hnd.1)
        simpa [gpop] using this
      rw [hrest, h]
      simp [List.length_cons]
      omega
    · rw [if_neg hk] at h ⊢
      have := ih hnd.2 h
      unfold gpop groupsTotal at this
      omega

/-! ## Basic lemmas: grouping (`buildGroups`) -/

theorem glookup_append_single {κ : Type} [DecidableEq κ] (gs : Groups κ)
    (k0 : κ) (v : List Student) (k : κ) :
    glookup (gs ++ [(k0, v)]) k =
      if k ∈ gs.map (fun e => e.1) then glookup gs k
      else if k0 = k then v else [] := by
  induction gs with
  | nil => simp [glookup_cons, glookup_nil]
  | cons e gs ih =>
    rw [List.cons_append, glookup_cons, glookup_cons]
    simp only [List.map_cons, List.mem_cons]
    by_cases h : e.1 = k
    · rw [if_pos h, if_pos h, if_pos (Or.inl h.symm)]
    · rw [if_neg h, if_neg h, ih]
      by_cases h2 : k ∈ gs.map (fun e => e.1)
      · rw [if_pos h2, if_pos (Or.inr h2)]
      · have hnot : ¬ (k = e.1 ∨ k ∈ gs.map (fun e => e.1)) := by
          rintro (hc | hc)
          · exact h hc.symm
          · exact h2 hc
        rw [if_neg h2, if_neg hnot]

theorem glookup_gInsert {κ : Type} [DecidableEq κ] (key : Student → κ)
    (gs : Groups κ) (s : Student) (k : κ) :
    glookup (gInsert key gs s) k =
      glookup gs k ++ (if key s = k then [s] else []) := by
  unfold gInsert
  by_cases hmem : key s ∈ gs.map (fun e => e.1)
  · rw [if_pos ((gmem_any gs (key s)).mpr hmem)]
    by_cases hk : key s = k
    · subst hk
      rw [glookup_mapUpd_self (fun q => q ++ [s]) hmem, if_pos rfl]
    · rw [glookup_mapUpd_ne (fun q => q ++ [s]) gs (fun hc => hk hc.symm), if_neg hk,
        List.append_nil]
  · rw [if_neg (fun hc => hmem ((gmem_any gs (key s)).mp hc))]
    rw [glookup_append_single]
    by_cases h2 : k ∈ gs.map (fun e => e.1)
    · rw [if_pos h2, if_neg (fun hc : key s = k => hmem (hc ▸ h2)), List.append_nil]
    · rw [if_neg h2, glookup_not_mem h2, List.nil_append]

theorem gInsert_keys {κ : Type} [DecidableEq κ] (key : Student → κ)
    (gs : Groups κ) (s : Student) :
    (gInsert key gs s).map (fun e => e.1) =
      if key s ∈ gs.map (fun e => e.1) then gs.map (fun e => e.1)
      else gs.map (fun e => e.1) ++ [key s] := by
  unfold gInsert
  by_cases hmem : key s ∈ gs.map (fun e => e.1)
  · rw [if_pos ((gmem_any gs (key s)).mpr hmem), if_pos hmem]
    rw [List.map_map]
    apply List.map_congr_left
    intro e _
    by_cases h : e.1 = key s
    · simp [h]
    · simp [h]
  · rw [if_neg (fun hc => hmem ((gmem_any gs (key s)).mp hc)), if_neg hmem]
    simp

theorem gInsert_total {κ : Type} [DecidableEq κ] (key : Student → κ)
    {gs : Groups κ} (hnd : (gs.map (fun e => e.1)).Nodup) (s : Student) :
    groupsTotal (gInsert key gs s) = groupsTotal gs + 1 := by
  unfold gInsert
  by_cases hmem : key s ∈ gs.map (fun e => e.1)
  · rw [if_pos ((gmem_any gs (key s)).mpr hmem)]
    induction gs with
    | nil => cases hmem
    | cons e gs ih =>
      simp only [List.map_cons, List.nodup_cons] at hnd
      simp only [List.map_cons, List.mem_cons] at hmem
      unfold groupsTotal
      simp only [List.map_cons, List.sum_cons]
      by_cases h : e.1 = key s
      · rw [if_pos h]
        have hrest : gs.map (fun e => if e.1 = key s then (e.1, e.2 ++ [s]) else e) = gs := by
          apply List.map_congr_left (fun f hf => ?_) |>.trans (List.map_id gs)
          rw [if_neg (fun hc => (h ▸ hnd.1) (List.mem_map.mpr ⟨f, hf, hc⟩))]
          rfl
        rw [hrest]
        simp only [List.length_append, List.length_cons, List.length_nil]
        omega
      · rw [if_neg h]
        have hmem2 : key s ∈ gs.map (fun e => e.1) :=
          hmem.resolve_left (fun hc => h hc.symm)
        have := ih hnd.2 hmem2
        unfold groupsTotal at this
        omega
  · rw [if_neg (fun hc => hmem ((gmem_any gs (key s)).mp hc))]
    unfold groupsTotal
    simp

theorem buildGroups_aux {κ : Type} [DecidableEq κ] (key : Student → κ) :
    ∀ (l : List Student) (gs : Groups κ), (gs.map (fun e => e.1)).Nodup →
      ((l.foldl (gInsert key) gs).map (fun e => e.1)).Nodup ∧
      groupsTotal (l.foldl (gInsert key) gs) = groupsTotal gs + l.length ∧
      (∀ k, glookup (l.foldl (gInsert key) gs) k =
        glookup gs k ++ l.filter (fun s => decide (key s = k))) := by
  intro l
  induction l with
  | nil =>
    intro gs hnd
    exact ⟨hnd, by simp, fun k => by simp⟩
  | cons s l ih =>
    intro gs hnd
    have hnd2 : ((gInsert key gs s).map (fun e => e.1)).Nodup := by
      rw [gInsert_keys]
      by_cases hmem : key s ∈ gs.map (fun e => e.1)
      · rw [if_pos hmem]; exact hnd
      · rw [if_neg hmem]
        simp only [List.nodup_append, List.nodup_cons, List.nodup_nil]
        exact ⟨hnd, by simp, by simpa using hmem⟩
    rcases ih (gInsert key gs s) hnd2 with ⟨h1, h2, h3⟩
    refine ⟨by simpa using h1, ?_, ?_⟩
    · simp only [List.foldl_cons]
      rw [h2, gInsert_total key hnd s]
      simp only [List.length_cons]
      omega
    · intro k
      simp only [List.foldl_cons]
      rw [h3 k, glookup_gInsert]
      by_cases hk : key s = k
      · simp [List.filter_cons, hk, List.append_assoc]
      · simp [List.filter_cons, hk]

theorem buildGroups_lookup {κ : Type} [DecidableEq κ] (key : Student → κ)
    (l : List Student) (k : κ) :
    glookup (buildGroups key l) k = l.filter (fun s => decide (key s = k)) := by
  have := (buildGroups_aux key l [] (by simp)).2.2 k
  simpa [buildGroups, glookup_nil] using this

theorem buildGroups_keys_nodup {κ : Type} [DecidableEq κ] (key : Student → κ)
    (l : List Student) : ((buildGroups key l).map (fun e => e.1)).Nodup :=
  (buildGroups_aux key l [] (by simp)).1

theorem buildGroups_total {κ : Type} [DecidableEq κ] (key : Student → κ)
    (l : List Student) : groupsTotal (buildGroups key l) = l.length := by
  have := (buildGroups_aux key l [] (by simp)).2.1
  simpa [buildGroups, groupsTotal_nil] using this

theorem buildGroups_eq_nil {κ : Type} [DecidableEq κ] (key : Student → κ)
    (l : List Student) : buildGroups key l = [] ↔ l = [] := by
  constructor
  · intro h
    have := buildGroups_total key l
    rw [h, groupsTotal_nil] at this
    exact List.length_eq_zero.mp this.symm
  · rintro rfl
    rfl

/-! ## Seat label injectivity -/

theorem charOfNat_toNat {n : Nat} (h : n < 55296) : (Char.ofNat n).toNat = n := by
  have hv : n.isValidChar := Or.inl h
  rw [Char.ofNat, dif_pos hv]
  rfl

theorem decodeDec_append_digit (l : List Char) (c : Char) :
    decodeDec (l ++ [c]) = decodeDec l * 10 + (c.toNat - 48) := by
  unfold decodeDec
  rw [List.foldl_append]
  rfl

theorem decDigit_toNat {d : Nat} (h : d < 10) : (decDigit d).toNat = 48 + d := by
  unfold decDigit
  exact charOfNat_toNat (by omega)

theorem natToDec_decode (n : Nat) : decodeDec (natToDec n) = n := by
  induction n using Nat.strong_induction_on with
  | _ n ih =>
    rw [natToDec]
    by_cases h : n < 10
    · rw [dif_pos h]
      unfold decodeDec
      simp only [List.foldl_cons, List.foldl_nil]
      rw [decDigit_toNat h]
      omega
    · rw [dif_neg h]
      rw [decodeDec_append_digit]
      rw [ih (n / 10) (Nat.div_lt_self (by omega) (by omega))]
      rw [decDigit_toNat (Nat.mod_lt _ (by omega))]
      omega

theorem natToDec_inj {m n : Nat} (h : natToDec m = natToDec n) : m = n := by
  have := natToDec_decode m
  rw [h, natToDec_decode] at this
  exact this.symm

theorem seat_label_inj {c1 r1 c2 r2 : Nat} (h1 : c1 < 55231) (h2 : c2 < 55231)
    (h : _seat_label c1 r1 = _seat_label c2 r2) : c1 = c2 ∧ r1 = r2 := by
  unfold _seat_label at h
  injection h with h
  injection h with hhead htail
  constructor
  · have e1 := charOfNat_toNat (n := 65 + c1) (by omega)
    have e2 := charOfNat_toNat (n := 65 + c2) (by omega)
    rw [hhead] at e1
    omega
  · have := natToDec_inj htail
    omega

/-! ## A no-duplicates transfer principle

If every per-key subsequence of a list has pairwise distinct images under
`f`, and the image determines the key, the whole list has pairwise distinct
images. -/

theorem nodup_of_groupwise {α κ β : Type} [DecidableEq κ]
    (key : α → κ) (f : α → β) :
    ∀ l : List α,
      (∀ p ∈ l, ∀ q ∈ l, f p = f q → key p = key q) →
      (∀ k, ((l.filter (fun p => decide (key p = k))).map f).Nodup) →
      (l.map f).Nodup := by
  intro l
  induction l with
  | nil => intro _ _; simp
  | cons p l ih =>
    intro hsame hk
    simp only [List.map_cons, List.nodup_cons]
    constructor
    · intro hmem
      rcases List.mem_map.mp hmem with ⟨q, hq, hfq⟩
      have hkey : key p = key q := (hsame q (by simp [hq]) p (by simp) hfq).symm
      have := hk (key p)
      rw [List.filter_cons] at this
      simp only [decide_eq_true_eq] at this
      rw [if_pos (by simp)] at this
      simp only [List.map_cons, List.nodup_cons] at this
      apply this.1
      apply List.mem_map.mpr
      refine ⟨q, ?_, hfq⟩
      apply List.mem_filter.mpr
      exact ⟨hq, by simp [hkey.symm]⟩
    · apply ih
      · intro a ha b hb hab
        exact hsame a (by simp [ha]) b (by simp [hb]) hab
      · intro k
        have := hk k
        rw [List.filter_cons] at this
        by_cases hp : decide (key p = k) = true
        · rw [if_pos hp] at this
          simp only [List.map_cons, List.nodup_cons] at this
          exact this.2
        · rw [if_neg hp] at this
          exact this

/-! ## Shuffle permutation -/

theorem shuffleWith_perm_aux {α : Type} [DecidableEq α] :
    ∀ (n : Nat) (l : List α), l.length ≤ n → ∀ (g : RNG), (shuffleWith g l).1.Perm l := by
  intro n
  induction n with
  | zero =>
    intro l hl g
    have hnil : l = [] := List.length_eq_zero.mp (by omega)
    subst hnil
    simp [shuffleWith]
  | succ n ih =>
    intro l hl g
    cases l with
    | nil => simp [shuffleWith]
    | cons a as =>
      rw [shuffleWith]
      have hi : rngHead g % (a :: as).length < (a :: as).length :=
        Nat.mod_lt _ (by simp)
      show (((a :: as).getD (rngHead g % (a :: as).length) a) ::
        (shuffleWith (rngTail g) ((a :: as).eraseIdx (rngHead g % (a :: as).length))).1).Perm
        (a :: as)
      have hplen : ((a :: as).eraseIdx (rngHead g % (a :: as).length)).length ≤ n := by
        rw [List.length_eraseIdx, if_pos hi]
        simp only [List.length_cons] at hl ⊢
        omega
      have hperm := ih _ hplen (rngTail g)
      rw [List.getD_eq_getElem _ _ hi]
      refine List.Perm.trans (List.Perm.cons _ hperm) ?_
      refine List.Perm.symm ?_
      refine List.Perm.trans (List.perm_cons_erase (List.getElem_mem hi)) ?_
      exact List.Perm.cons _ (List.erase_getElem hi)

theorem shuffleWith_perm {α : Type} [DecidableEq α] (l : List α) (g : RNG) :
    (shuffleWith g l).1.Perm l :=
  shuffleWith_perm_aux l.length l (le_refl _) g

theorem shuffleWith_nodup_map {α β : Type} [DecidableEq α] (f : α → β)
    (l : List α) (g : RNG) (h : (l.map f).Nodup) :
    ((shuffleWith g l).1.map f).Nodup :=
  (((shuffleWith_perm l g).map f).nodup_iff).mpr h

theorem shuffleWith_mem {α : Type} [DecidableEq α] {l : List α} {g : RNG} {x : α}
    (h : x ∈ (shuffleWith g l).1) : x ∈ l :=
  (shuffleWith_perm l g).mem_iff.mp h

/-! ## Canonical sorting for permuted inputs with distinct keys -/

theorem sort_canonical {α β : Type} [LinearOrder β] (key : α → β)
    (r : α → α → Prop) [DecidableRel r] [IsTotal α r] [IsTrans α r]
    (hr : ∀ a b, r a b ↔ key a ≤ key b)
    {l1 l2 : List α} (hp : l1.Perm l2) (hnd : (l1.map key).Nodup) :
    List.insertionSort r l1 = List.insertionSort r l2 := by
  have hperm : (List.insertionSort r l1).Perm (List.insertionSort r l2) :=
    ((List.perm_insertionSort r l1).trans hp).trans (List.perm_insertionSort r l2).symm
  have hnd1 : ((List.insertionSort r l1).map key).Nodup :=
    (((List.perm_insertionSort r l1).map key).nodup_iff).mpr hnd
  have hnd2 : ((List.insertionSort r l2).map key).Nodup := by
    refine ((hperm.map key).nodup_iff).mp hnd1
  have hstrict : ∀ (m : List α), List.Sorted r m → ((m.map key).Nodup) →
      List.Sorted (fun a b => key a < key b) m := by
    intro m hs hn
    have hne : List.Pairwise (fun a b => key a ≠ key b) m := List.pairwise_map.mp hn
    exact (hs.and hne).imp (fun hab => lt_of_le_of_ne ((hr _ _).mp hab.1) hab.2)
  have hs1 := hstrict _ (List.sorted_insertionSort r l1) hnd1
  have hs2 := hstrict _ (List.sorted_insertionSort r l2) hnd2
  exact @List.eq_of_perm_of_sorted α (fun a b => key a < key b)
    ⟨fun a b hab hba => absurd hba (not_lt.mpr (le_of_lt hab))⟩ _ _ hperm hs1 hs2

/-! ## Generic filler lemmas -/

section FillerLemmas

variable {κ α : Type} [DecidableEq κ]
variable (mid : Groups κ → Grid → Nat → Nat → RNG → Option (κ × RNG))
variable (mk : Nat → Nat → Student → α)
variable (start : Groups κ → Grid → Nat → RNG → Option (κ × Bool × RNG))

theorem fillRows_pops_col :
    ∀ (n r c : Nat) (chosen : κ) (grid : Grid) (qs : Groups κ) (g : RNG),
      ∀ p ∈ (fillRows mid mk n r c chosen grid qs g).pops, p.col_index = c := by
  intro n
  induction n with
  | zero =>
    intro r c chosen grid qs g p hp
    simp only [fillRows] at hp
    cases hp
  | succ n ih =>
    intro r c chosen grid qs g p hp
    simp only [fillRows] at hp
    split at hp
    · cases hp
    · rename_i k g1 _
      split at hp
      · cases hp
      · rename_i s _ _
        simp only [List.mem_cons] at hp
        rcases hp with hp | hp
        · subst hp; rfl
        · exact ih (r + 1) c k _ _ g1 p hp

theorem fillRows_pops_rows :
    ∀ (n r c : Nat) (chosen : κ) (grid : Grid) (qs : Groups κ) (g : RNG),
      (fillRows mid mk n r c chosen grid qs g).pops.map (fun p => p.row_index) =
        List.range' r (fillRows mid mk n r c chosen grid qs g).pops.length := by
  intro n
  induction n with
  | zero =>
    intro r c chosen grid qs g
    simp [fillRows]
  | succ n ih =>
    intro r c chosen grid qs g
    simp only [fillRows]
    split
    · simp
    · rename_i k g1 _
      split
      · simp
      · rename_i s _ _
        simp only [List.map_cons, List.length_cons, List.range'_succ]
        rw [ih]

theorem fillRows_decomp :
    ∀ (n r c : Nat) (chosen : κ) (grid : Grid) (qs : Groups κ) (g : RNG) (k' : κ),
      glookup qs k' =
        ((fillRows mid mk n r c chosen grid qs g).pops.filter
          (fun p => decide (p.key = k'))).map (fun p => p.student) ++
        glookup (fillRows mid mk n r c chosen grid qs g).qs k' := by
  intro n
  induction n with
  | zero =>
    intro r c chosen grid qs g k'
    simp [fillRows]
  | succ n ih =>
    intro r c chosen grid qs g k'
    simp only [fillRows]
    split
    · simp
    · rename_i k g1 _
      split
      · simp
      · rename_i s tl hlook
        simp only [List.filter_cons]
        by_cases hk : k = k'
        · subst hk
          simp only [decide_eq_true_eq, if_pos rfl, List.map_cons, List.cons_append]
          rw [hlook]
          congr 1
          have := ih (r + 1) c k (gridSet grid r c s) (gpop qs k) g1 k
          rw [glookup_gpop_self, hlook] at this
          exact this
        · rw [if_neg (by simp [hk])]
          have := ih (r + 1) c k (gridSet grid r c s) (gpop qs k) g1 k'
          rw [glookup_gpop_ne _ (fun hc => hk hc.symm)] at this
          exact this

theorem fillRows_out :
    ∀ (n r c : Nat) (chosen : κ) (grid : Grid) (qs : Groups κ) (g : RNG),
      (fillRows mid mk n r c chosen grid qs g).out =
        (fillRows mid mk n r c chosen grid qs g).pops.map
          (fun p => mk p.col_index p.row_index p.student) := by
  intro n
  induction n with
  | zero =>
    intro r c chosen grid qs g
    simp [fillRows]
  | succ n ih =>
    intro r c chosen grid qs g
    simp only [fillRows]
    split
    · simp
    · rename_i k g1 _
      split
      · simp
      · rename_i s _ _
        simp only [List.map_cons]
        rw [ih]

theorem fillCols_pops_col_range :
    ∀ (rows n c : Nat) (grid : Grid) (qs : Groups κ) (g : RNG),
      ∀ p ∈ (fillCols start mid mk rows n c grid qs g).pops,
        c ≤ p.col_index ∧ p.col_index < c + n := by
  intro rows n
  induction n with
  | zero =>
    intro c grid qs g p hp
    simp only [fillCols] at hp
    cases hp
  | succ n ih =>
    intro c grid qs g p hp
    simp only [fillCols] at hp
    split at hp
    · cases hp
    · rename_i chosen fb g1 _
      simp only [List.mem_append] at hp
      rcases hp with hp | hp
      · have := fillRows_pops_col mid mk rows 0 c chosen grid qs g1 p hp
        omega
      · have := ih (c + 1) _ _ _ p hp
        omega

theorem fillCols_pops_pairwise :
    ∀ (rows n c : Nat) (grid : Grid) (qs : Groups κ) (g : RNG),
      List.Pairwise cellLt (fillCols start mid mk rows n c grid qs g).pops := by
  intro rows n
  induction n with
  | zero =>
    intro c grid qs g
    simp [fillCols]
  | succ n ih =>
    intro c grid qs g
    simp only [fillCols]
    split
    · simp
    · rename_i chosen fb g1 _
      rw [List.pairwise_append]
      refine ⟨?_, ih _ _ _ _, ?_⟩
      · have hrows := fillRows_pops_rows mid mk rows 0 c chosen grid qs g1
        have hlt : List.Pairwise (fun a b => a < b)
            ((fillRows mid mk rows 0 c chosen grid qs g1).pops.map (fun p => p.row_index)) := by
          rw [hrows]
          exact List.pairwise_lt_range' _ _
        have hpair := List.pairwise_map.mp hlt
        refine hpair.imp_of_mem ?_
        intro a b ha hb hab
        right
        have ha2 := fillRows_pops_col mid mk rows 0 c chosen grid qs g1 a ha
        have hb2 := fillRows_pops_col mid mk rows 0 c chosen grid qs g1 b hb
        exact ⟨ha2.trans hb2.symm, hab⟩
      · intro a ha b hb
        have hac := fillRows_pops_col mid mk rows 0 c chosen grid qs g1 a ha
        have hbc := (fillCols_pops_col_range mid mk start rows n (c + 1) _ _ _ b hb).1
        left
        omega

end FillerLemmas

section FillerLemmas2

variable {κ α : Type} [DecidableEq κ]
variable (mid : Groups κ → Grid → Nat → Nat → RNG → Option (κ × RNG))
variable (mk : Nat → Nat → Student → α)
variable (start : Groups κ → Grid → Nat → RNG → Option (κ × Bool × RNG))

theorem fillCols_decomp :
    ∀ (rows n c : Nat) (grid : Grid) (qs : Groups κ) (g : RNG) (k' : κ),
      glookup qs k' =
        ((fillCols start mid mk rows n c grid qs g).pops.filter
          (fun p => decide (p.key = k'))).map (fun p => p.student) ++
        glookup (fillCols start mid mk rows n c grid qs g).qs k' := by
  intro rows n
  induction n with
  | zero =>
    intro c grid qs g k'
    simp [fillCols]
  | succ n ih =>
    intro c grid qs g k'
    simp only [fillCols]
    split
    · simp
    · rename_i chosen fb g1 _
      simp only [List.filter_append, List.map_append, List.append_assoc]
      rw [fillRows_decomp mid mk rows 0 c chosen grid qs g1 k']
      congr 1
      exact ih (c + 1) _ _ _ k'

theorem fillCols_out :
    ∀ (rows n c : Nat) (grid : Grid) (qs : Groups κ) (g : RNG),
      (fillCols start mid mk rows n c grid qs g).out =
        (fillCols start mid mk rows n c grid qs g).pops.map
          (fun p => mk p.col_index p.row_index p.student) := by
  intro rows n
  induction n with
  | zero =>
    intro c grid qs g
    simp [fillCols]
  | succ n ih =>
    intro c grid qs g
    simp only [fillCols]
    split
    · simp
    · rename_i chosen fb g1 _
      simp only [List.map_append]
      rw [fillRows_out, ih]

/-- Every start-of-column selection trace entry records a cohort that had
students at selection time, and — when `start` guarantees a property `P` of
tier-1 (non-fallback) selections against the recorded left neighbor — that
property. -/
theorem fillCols_starts_spec (P : κ → Option Student → Prop)
    (hstart : ∀ qs grid c g k fb g2, start qs grid c g = some (k, fb, g2) →
      glookup qs k ≠ [] ∧
      (fb = false → P k (leftNbr0 grid c))) :
    ∀ (rows n c : Nat) (grid : Grid) (qs : Groups κ) (g : RNG),
      ∀ e ∈ (fillCols start mid mk rows n c grid qs g).starts,
        e.hadStudents = true ∧ (e.fellBack = false → P e.chosen e.left0) := by
  intro rows n
  induction n with
  | zero =>
    intro c grid qs g e he
    simp only [fillCols] at he
    cases he
  | succ n ih =>
    intro c grid qs g e he
    simp only [fillCols] at he
    split at he
    · cases he
    · rename_i chosen fb g1 heq
      simp only [List.mem_cons] at he
      rcases he with he | he
      · subst he
        rcases hstart qs grid c g chosen fb g1 heq with ⟨hne, hP⟩
        constructor
        · have hfalse : (glookup qs chosen).isEmpty = false := by
            cases hq : glookup qs chosen with
            | nil => exact absurd hq hne
            | cons x xs => simp [hq]
          simp [hfalse]
        · exact hP
      · exact ih (c + 1) _ _ _ e he

end FillerLemmas2

/-! ## Driver loop lemmas -/

theorem hallsCons_key_mem {α : Type} {rn : String} {out : List α}
    {hs : List (String × List α)} {e : String × List α}
    (he : e ∈ hallsCons rn out hs) : e.1 = rn ∨ e.1 ∈ hs.map (fun x => x.1) := by
  unfold hallsCons at he
  split at he
  · rcases List.mem_map.mp he with ⟨f, hf, rfl⟩
    by_cases h : f.1 = rn
    · rw [if_pos h]
      left
      simpa using h
    · rw [if_neg h]
      right
      exact List.mem_map.mpr ⟨f, hf, rfl⟩
  · rcases List.mem_cons.mp he with he | he
    · subst he
      left
      rfl
    · right
      exact List.mem_map.mpr ⟨e, he, rfl⟩

theorem hallsCons_fresh {α : Type} {rn : String} (out : List α)
    {hs : List (String × List α)} (h : ∀ e ∈ hs, e.1 ≠ rn) :
    hallsCons rn out hs = (rn, out) :: hs := by
  unfold hallsCons
  rw [if_neg ?_]
  simp only [List.any_eq_true, decide_eq_true_eq, not_exists, not_and]
  exact h

section DriverLemmas

variable {κ α : Type} [DecidableEq κ]
variable (hall : Room → Groups κ → RNG → FillRes κ α)
variable (wOf : Room → α → SeatWrite)

theorem roomsLoop_decomp
    (hpe : ∀ room qs g, (hall room qs g).out.isEmpty = true → (hall room qs g).pops = [])
    (hhall : ∀ room qs g k, glookup qs k =
      ((hall room qs g).pops.filter (fun p => decide (p.key = k))).map (fun p => p.student) ++
      glookup (hall room qs g).qs k) :
    ∀ (rooms : List Room) (qs : Groups κ) (g : RNG) (k : κ),
      glookup qs k =
        ((roomsLoop hall wOf rooms qs g).pops.filter
          (fun p => decide (p.key = k))).map (fun p => p.student) ++
        glookup (roomsLoop hall wOf rooms qs g).qs k := by
  intro rooms
  induction rooms with
  | nil =>
    intro qs g k
    simp [roomsLoop]
  | cons room rest ih =>
    intro qs g k
    simp only [roomsLoop]
    split
    · rename_i hemp
      have hp := hpe room qs g hemp
      have := hhall room qs g k
      rw [hp] at this
      simp only [List.filter_nil, List.map_nil, List.nil_append] at this
      rw [this]
      exact ih _ _ k
    · simp only [List.filter_append, List.map_append, List.append_assoc]
      rw [hhall room qs g k]
      congr 1
      exact ih _ _ k

theorem roomsLoop_writes_ids
    (hpe : ∀ room qs g, (hall room qs g).out.isEmpty = true → (hall room qs g).pops = [])
    (hwid : ∀ room qs g, ((hall room qs g).out).map (fun a => (wOf room a).student_id) =
      ((hall room qs g).pops).map (fun p => p.student.student_id)) :
    ∀ (rooms : List Room) (qs : Groups κ) (g : RNG),
      (roomsLoop hall wOf rooms qs g).writes.map (fun w => w.student_id) =
        (roomsLoop hall wOf rooms qs g).pops.map (fun p => p.student.student_id) := by
  intro rooms
  induction rooms with
  | nil =>
    intro qs g
    simp [roomsLoop]
  | cons room rest ih =>
    intro qs g
    simp only [roomsLoop]
    split
    · exact ih _ _
    · simp only [List.map_append, List.map_map]
      rw [ih _ _]
      congr 1
      have := hwid room qs g
      simpa [Function.comp] using this

theorem roomsLoop_halls_keys :
    ∀ (rooms : List Room) (qs : Groups κ) (g : RNG),
      ∀ e ∈ (roomsLoop hall wOf rooms qs g).halls,
        e.1 ∈ rooms.map (fun r => r.room_no) := by
  intro rooms
  induction rooms with
  | nil =>
    intro qs g e he
    simp only [roomsLoop] at he
    cases he
  | cons room rest ih =>
    intro qs g e he
    simp only [roomsLoop] at he
    split at he
    · exact List.mem_cons.mpr (Or.inr (ih _ _ e he))
    · rcases hallsCons_key_mem he with h | h
      · simp [h]
      · rcases List.mem_map.mp h with ⟨f, hf, hfe⟩
        have := ih _ _ f hf
        rw [← hfe]
        exact List.mem_cons.mpr (Or.inr this)

theorem roomsLoop_halls_are_hall_outs :
    ∀ (rooms : List Room) (qs : Groups κ) (g : RNG),
      ((rooms.map (fun r => r.room_no)).Nodup) →
      ∀ e ∈ (roomsLoop hall wOf rooms qs g).halls,
        ∃ room qs2 g2, room ∈ rooms ∧ e.1 = room.room_no ∧
          e.2 = (hall room qs2 g2).out := by
  intro rooms
  induction rooms with
  | nil =>
    intro qs g _ e he
    simp only [roomsLoop] at he
    cases he
  | cons room rest ih =>
    intro qs g hnd e he
    simp only [List.map_cons, List.nodup_cons] at hnd
    simp only [roomsLoop] at he
    split at he
    · rcases ih _ _ hnd.2 e he with ⟨rm, qs2, g2, hm, h1, h2⟩
      exact ⟨rm, qs2, g2, List.mem_cons.mpr (Or.inr hm), h1, h2⟩
    · have hfresh : ∀ f ∈ (roomsLoop hall wOf rest
          (hall room qs g).qs (hall room qs g).g).halls, f.1 ≠ room.room_no := by
        intro f hf hc
        exact hnd.1 (hc ▸ roomsLoop_halls_keys hall wOf rest _ _ f hf)
      rw [hallsCons_fresh _ hfresh] at he
      rcases List.mem_cons.mp he with he | he
      · subst he
        exact ⟨room, qs, g, List.mem_cons.mpr (Or.inl rfl), rfl, rfl⟩
      · rcases ih _ _ hnd.2 e he with ⟨rm, qs2, g2, hm, h1, h2⟩
        exact ⟨rm, qs2, g2, List.mem_cons.mpr (Or.inr hm), h1, h2⟩

theorem roomsLoop_starts_spec (Q : ColStart κ → Prop)
    (hs : ∀ room qs g, ∀ e ∈ (hall room qs g).starts, Q e) :
    ∀ (rooms : List Room) (qs : Groups κ) (g : RNG),
      ∀ e ∈ (roomsLoop hall wOf rooms qs g).starts, Q e := by
  intro rooms
  induction rooms with
  | nil =>
    intro qs g e he
    simp only [roomsLoop] at he
    cases he
  | cons room rest ih =>
    intro qs g e he
    simp only [roomsLoop] at he
    split at he
    · exact ih _ _ e he
    · rcases List.mem_append.mp he with he | he
      · exact hs room qs g e he
      · exact ih _ _ e he

end DriverLemmas

/-! ## From pop traces to queue facts -/

section PopFacts

variable {κ : Type} [DecidableEq κ] (keyOf : Student → κ)

/-- Per cohort, the popped students are an initial segment of the cohort's
fetched queue. -/
theorem pops_prefix_of_decomp (sorted : List Student) (pops : List (Pop κ))
    (finalqs : Groups κ)
    (hdecomp : ∀ k, glookup (buildGroups keyOf sorted) k =
      (pops.filter (fun p => decide (p.key = k))).map (fun p => p.student) ++
      glookup finalqs k) :
    ∀ k, ∃ m, (pops.filter (fun p => decide (p.key = k))).map (fun p => p.student) =
      (glookup (buildGroups keyOf sorted) k).take m := by
  intro k
  refine ⟨((pops.filter (fun p => decide (p.key = k))).map (fun p => p.student)).length, ?_⟩
  rw [hdecomp k, List.take_left]

theorem pops_mem_of_decomp (sorted : List Student) (pops : List (Pop κ))
    (finalqs : Groups κ)
    (hdecomp : ∀ k, glookup (buildGroups keyOf sorted) k =
      (pops.filter (fun p => decide (p.key = k))).map (fun p => p.student) ++
      glookup finalqs k) :
    ∀ p ∈ pops, keyOf p.student = p.key ∧ p.student ∈ sorted := by
  intro p hp
  have hmem : p.student ∈ glookup (buildGroups keyOf sorted) p.key := by
    rw [hdecomp p.key]
    apply List.mem_append.mpr
    left
    exact List.mem_map.mpr ⟨p, List.mem_filter.mpr ⟨hp, by simp⟩, rfl⟩
  rw [buildGroups_lookup] at hmem
  have := List.mem_filter.mp hmem
  exact ⟨by simpa using this.2, this.1⟩

/-- If the input students have pairwise distinct identifiers, so do the
popped students of the whole run. -/
theorem pops_nodup_ids_of_decomp (sorted : List Student) (pops : List (Pop κ))
    (finalqs : Groups κ)
    (hdecomp : ∀ k, glookup (buildGroups keyOf sorted) k =
      (pops.filter (fun p => decide (p.key = k))).map (fun p => p.student) ++
      glookup finalqs k)
    (hnd : (sorted.map (fun s => s.student_id)).Nodup) :
    (pops.map (fun p => p.student.student_id)).Nodup := by
  have hinj := List.inj_on_of_nodup_map hnd
  apply nodup_of_groupwise (fun p => p.key) (fun p => p.student.student_id) pops
  · intro p hp q hq hpq
    have hpm := pops_mem_of_decomp keyOf sorted pops finalqs hdecomp p hp
    have hqm := pops_mem_of_decomp keyOf sorted pops finalqs hdecomp q hq
    have : p.student = q.student := hinj hpm.2 hqm.2 hpq
    rw [← hpm.1, ← hqm.1, this]
  · intro k
    rcases pops_prefix_of_decomp keyOf sorted pops finalqs hdecomp k with ⟨m, hm⟩
    have hqueue : ((glookup (buildGroups keyOf sorted) k).map
        (fun s => s.student_id)).Nodup := by
      rw [buildGroups_lookup]
      exact ((List.filter_sublist sorted).map (fun s : Student => s.student_id)).nodup hnd
    have : ((pops.filter (fun p => decide (p.key = k))).map (fun p => p.student)).map
        (fun s => s.student_id) =
        ((glookup (buildGroups keyOf sorted) k).take m).map (fun s => s.student_id) := by
      rw [hm]
    rw [List.map_map] at this
    have hsub : (((glookup (buildGroups keyOf sorted) k).take m).map
        (fun s => s.student_id)).Nodup :=
      ((List.take_sublist m _).map (fun s : Student => s.student_id)).nodup hqueue
    rw [← this] at hsub
    have hcomp : (fun s => s.student_id) ∘ (fun p : Pop κ => p.student) =
        fun p : Pop κ => p.student.student_id := rfl
    rwa [hcomp] at hsub

/-- If the fetched queue of every cohort is sorted by identifier, the
popped students of each cohort come out in ascending identifier order. -/
theorem pops_sorted_of_decomp (sorted : List Student) (pops : List (Pop κ))
    (finalqs : Groups κ)
    (hdecomp : ∀ k, glookup (buildGroups keyOf sorted) k =
      (pops.filter (fun p => decide (p.key = k))).map (fun p => p.student) ++
      glookup finalqs k)
    (hsorted : ∀ k, List.Pairwise sidLe (glookup (buildGroups keyOf sorted) k)) :
    ∀ k, List.Pairwise sidLe
      ((pops.filter (fun p => decide (p.key = k))).map (fun p => p.student)) := by
  intro k
  rcases pops_prefix_of_decomp keyOf sorted pops finalqs hdecomp k with ⟨m, hm⟩
  rw [hm]
  exact List.Pairwise.sublist (List.take_sublist m _) (hsorted k)

end PopFacts

/-! ## Regular strategy: support lemmas -/

namespace Reg

theorem reg_hall_decomp (room : Room) (ks : List GroupKey) (qs : Groups GroupKey)
    (g : RNG) (k : GroupKey) :
    glookup qs k =
      ((_assign_seats_for_hall room ks qs g).pops.filter
        (fun p => decide (p.key = k))).map (fun p => p.student) ++
      glookup (_assign_seats_for_hall room ks qs g).qs k :=
  fillCols_decomp (midSelect ks) (mkAssign room.room_no) (startSelect ks)
    room.rows room.cols 0 _ qs g k

theorem reg_hall_out_eq (room : Room) (ks : List GroupKey) (qs : Groups GroupKey)
    (g : RNG) :
    (_assign_seats_for_hall room ks qs g).out =
      (_assign_seats_for_hall room ks qs g).pops.map
        (fun p => mkAssign room.room_no p.col_index p.row_index p.student) :=
  fillCols_out (midSelect ks) (mkAssign room.room_no) (startSelect ks)
    room.rows room.cols 0 _ qs g

theorem reg_hall_pops_of_empty (room : Room) (ks : List GroupKey) (qs : Groups GroupKey)
    (g : RNG) (h : (_assign_seats_for_hall room ks qs g).out.isEmpty = true) :
    (_assign_seats_for_hall room ks qs g).pops = [] := by
  rw [reg_hall_out_eq room ks qs g, List.isEmpty_iff, List.map_eq_nil] at h
  exact h

theorem reg_startSelect_spec (ks : List GroupKey) (qs : Groups GroupKey) (grid : Grid)
    (c : Nat) (g : RNG) (k : GroupKey) (fb : Bool) (g2 : RNG)
    (h : startSelect ks qs grid c g = some (k, fb, g2)) :
    glookup qs k ≠ [] ∧ (fb = false → keyOk k (leftNbr0 grid c) = true) := by
  unfold startSelect at h
  split at h
  · split at h
    · cases h
    · rename_i k0 hch
      simp only [Option.some.injEq, Prod.mk.injEq] at h
      rcases h with ⟨hk, hfb, _⟩
      subst hk
      have hm := choice_mem hch
      unfold nonEmptyKeys at hm
      rw [List.mem_filter] at hm
      refine ⟨?_, ?_⟩
      · intro hc
        have h2 := hm.2
        rw [hc] at h2
        simp at h2
      · intro hc
        rw [← hfb] at hc
        cases hc
  · split at h
    · cases h
    · rename_i k0 hch
      simp only [Option.some.injEq, Prod.mk.injEq] at h
      rcases h with ⟨hk, hfb, _⟩
      subst hk
      have hm := choice_mem hch
      unfold validKeys at hm
      rw [List.mem_filter] at hm
      have h2 := hm.2
      rw [Bool.and_eq_true] at h2
      refine ⟨?_, fun _ => h2.2⟩
      intro hc
      have h1 := h2.1
      rw [hc] at h1
      simp at h1

theorem reg_hall_starts_spec (room : Room) (ks : List GroupKey) (qs : Groups GroupKey)
    (g : RNG) :
    ∀ e ∈ (_assign_seats_for_hall room ks qs g).starts,
      e.hadStudents = true ∧
      (e.fellBack = false → ∀ s, e.left0 = some s → keyOk e.chosen (some s) = true) := by
  intro e he
  have := fillCols_starts_spec (midSelect ks) (mkAssign room.room_no) (startSelect ks)
    (fun k nbr => ∀ s, nbr = some s → keyOk k (some s) = true)
    (fun qs2 grid2 c2 gg2 k fb gg h => by
      rcases reg_startSelect_spec ks qs2 grid2 c2 gg2 k fb gg h with ⟨h1, h2⟩
      refine ⟨h1, fun hfb s hs => ?_⟩
      rw [← hs]
      exact h2 hfb)
    room.rows room.cols 0 _ qs g e he
  exact this

/-- Within one cohort the composite cursor order collapses to ascending
`student_id` order. -/
theorem cursorLe_sid {s t : Student} (h : regCursorLe s t)
    (hk : groupKeyOf s = groupKeyOf t) : sidLe s t := by
  unfold groupKeyOf at hk
  simp only [Prod.mk.injEq] at hk
  rcases hk with ⟨hy, hd, hv⟩
  unfold regCursorLe regSortKey at h
  rw [hy, hd, hv] at h
  rw [Prod.Lex.le_iff] at h
  rcases h with h | h
  · exact absurd h (lt_irrefl _)
  · rcases h with ⟨_, h⟩
    rw [Prod.Lex.le_iff] at h
    rcases h with h | h
    · exact absurd h (lt_irrefl _)
    · rcases h with ⟨_, h⟩
      rw [Prod.Lex.le_iff] at h
      rcases h with h | h
      · exact absurd h (lt_irrefl _)
      · exact (strLe_iff _ _).mpr h.2

theorem reg_queue_sorted (students : List Student) (k : GroupKey) :
    List.Pairwise sidLe (glookup (_fetch_unallocated_students students) k) := by
  unfold _fetch_unallocated_students
  rw [buildGroups_lookup]
  have hsorted : List.Pairwise regCursorLe
      (List.insertionSort regCursorLe (students.filter (fun s => s.room_no.isNone))) :=
    List.sorted_insertionSort regCursorLe _
  have hfilter : List.Pairwise regCursorLe
      (List.filter (fun s => decide (groupKeyOf s = k))
        (List.insertionSort regCursorLe (students.filter (fun s => s.room_no.isNone)))) :=
    List.Pairwise.sublist (List.filter_sublist _) hsorted
  refine hfilter.imp_of_mem ?_
  intro s t hs ht hle
  have hks := (List.mem_filter.mp hs).2
  have hkt := (List.mem_filter.mp ht).2
  simp only [decide_eq_true_eq] at hks hkt
  exact cursorLe_sid hle (hks.trans hkt.symm)

end Reg

namespace Reg

theorem reg_run_decomp (students : List Student) (rooms : List Room) (g : RNG)
    (k : GroupKey) :
    glookup (_fetch_unallocated_students students) k =
      ((allocate_exam_seating_for_db students rooms g).pops.filter
        (fun p => decide (p.key = k))).map (fun p => p.student) ++
      glookup (allocate_exam_seating_for_db students rooms g).qs k := by
  unfold allocate_exam_seating_for_db
  split
  · simp
  · exact roomsLoop_decomp _ _
      (fun room qs g2 h => reg_hall_pops_of_empty room _ qs g2 h)
      (fun room qs g2 k2 => reg_hall_decomp room _ qs g2 k2) _ _ _ k

theorem reg_run_writes_ids (students : List Student) (rooms : List Room) (g : RNG) :
    (allocate_exam_seating_for_db students rooms g).writes.map (fun w => w.student_id) =
      (allocate_exam_seating_for_db students rooms g).pops.map
        (fun p => p.student.student_id) := by
  unfold allocate_exam_seating_for_db
  split
  · simp
  · refine roomsLoop_writes_ids _ _
      (fun room qs g2 h => reg_hall_pops_of_empty room _ qs g2 h)
      (fun room qs g2 => ?_) _ _ _
    rw [reg_hall_out_eq]
    simp [mkAssign, List.map_map, Function.comp]

theorem reg_run_starts_spec (students : List Student) (rooms : List Room) (g : RNG) :
    ∀ e ∈ (allocate_exam_seating_for_db students rooms g).starts,
      e.hadStudents = true ∧
      (e.fellBack = false → ∀ s, e.left0 = some s → keyOk e.chosen (some s) = true) := by
  unfold allocate_exam_seating_for_db
  split
  · intro e he
    cases he
  · exact roomsLoop_starts_spec _ _ _
      (fun room qs g2 e he => reg_hall_starts_spec room _ qs g2 e he) _ _ _

end Reg

/-! ## First-year strategy: support lemmas -/

namespace FY

theorem fy_hall_decomp (room : Room) (ks : List GroupKey) (qs : Groups GroupKey)
    (g : RNG) (k : GroupKey) :
    glookup qs k =
      ((_assign_seats_for_hall room ks qs g).pops.filter
        (fun p => decide (p.key = k))).map (fun p => p.student) ++
      glookup (_assign_seats_for_hall room ks qs g).qs k :=
  fillCols_decomp (midSelect ks) (mkAssign room.room_no) (startSelect ks)
    room.rows room.cols 0 _ qs g k

theorem fy_hall_out_eq (room : Room) (ks : List GroupKey) (qs : Groups GroupKey)
    (g : RNG) :
    (_assign_seats_for_hall room ks qs g).out =
      (_assign_seats_for_hall room ks qs g).pops.map
        (fun p => mkAssign room.room_no p.col_index p.row_index p.student) :=
  fillCols_out (midSelect ks) (mkAssign room.room_no) (startSelect ks)
    room.rows room.cols 0 _ qs g

theorem fy_hall_pops_of_empty (room : Room) (ks : List GroupKey) (qs : Groups GroupKey)
    (g : RNG) (h : (_assign_seats_for_hall room ks qs g).out.isEmpty = true) :
    (_assign_seats_for_hall room ks qs g).pops = [] := by
  rw [fy_hall_out_eq room ks qs g, List.isEmpty_iff, List.map_eq_nil_iff] at h
  exact h

theorem fy_startSelect_spec (ks : List GroupKey) (qs : Groups GroupKey) (grid : Grid)
    (c : Nat) (g : RNG) (k : GroupKey) (fb : Bool) (g2 : RNG)
    (h : startSelect ks qs grid c g = some (k, fb, g2)) :
    glookup qs k ≠ [] ∧ (fb = false →
      ∀ d, deptOf (leftNbr0 grid c) = some d → is_compatible k d = true) := by
  unfold startSelect at h
  split at h
  · split at h
    · split at h
      · cases h
      · rename_i k0 hch
        simp only [Option.some.injEq, Prod.mk.injEq] at h
        rcases h with ⟨hk, hfb, _⟩
        subst hk
        have hm := choice_mem hch
        unfold nonEmptyDepts at hm
        rw [List.mem_filter] at hm
        refine ⟨?_, ?_⟩
        · intro hc
          have hb := hm.2
          rw [hc] at hb
          simp at hb
        · intro hc
          rw [← hfb] at hc
          cases hc
    · split at h
      · cases h
      · rename_i k0 hch
        simp only [Option.some.injEq, Prod.mk.injEq] at h
        rcases h with ⟨hk, hfb, _⟩
        subst hk
        have hm := choice_mem hch
        unfold tier2Depts at hm
        rw [List.mem_filter, Bool.and_eq_true] at hm
        refine ⟨?_, ?_⟩
        · intro hc
          have hb := hm.2.1
          rw [hc] at hb
          simp at hb
        · intro hc
          rw [← hfb] at hc
          cases hc
  · split at h
    · cases h
    · rename_i k0 hch
      simp only [Option.some.injEq, Prod.mk.injEq] at h
      rcases h with ⟨hk, hfb, _⟩
      subst hk
      have hm := choice_mem hch
      unfold tier1Depts at hm
      rw [List.mem_filter, Bool.and_eq_true] at hm
      refine ⟨?_, ?_⟩
      · intro hc
        have hb := hm.2.1
        rw [hc] at hb
        simp at hb
      · intro _ d hd
        have hb := hm.2.2
        rw [hd] at hb
        exact hb

theorem fy_hall_starts_spec (room : Room) (ks : List GroupKey) (qs : Groups GroupKey)
    (g : RNG) :
    ∀ e ∈ (_assign_seats_for_hall room ks qs g).starts,
      e.hadStudents = true ∧
      (e.fellBack = false → ∀ d, deptOf e.left0 = some d →
        is_compatible e.chosen d = true) := by
  intro e he
  exact fillCols_starts_spec (midSelect ks) (mkAssign room.room_no) (startSelect ks)
    (fun k nbr => ∀ d, deptOf nbr = some d → is_compatible k d = true)
    (fun qs2 grid2 c2 gg2 k fb gg h => fy_startSelect_spec ks qs2 grid2 c2 gg2 k fb gg h)
    room.rows room.cols 0 _ qs g e he

theorem fy_queue_sorted (students : List Student) (k : GroupKey) :
    List.Pairwise sidLe (glookup (_fetch_unallocated_students students) k) := by
  unfold _fetch_unallocated_students
  rw [buildGroups_lookup]
  have hsorted : List.Pairwise sidLe
      (List.insertionSort sidLe (students.filter (fun s => s.room_no.isNone))) :=
    List.sorted_insertionSort sidLe _
  exact List.Pairwise.sublist (List.filter_sublist _) hsorted

theorem fy_run_decomp (students : List Student) (rooms : List Room) (g : RNG)
    (k : GroupKey) :
    glookup (_fetch_unallocated_students students) k =
      ((allocate_firstyear_seating students rooms g).pops.filter
        (fun p => decide (p.key = k))).map (fun p => p.student) ++
      glookup (allocate_firstyear_seating students rooms g).qs k := by
  unfold allocate_firstyear_seating
  split
  · simp
  · exact roomsLoop_decomp _ _
      (fun room qs g2 h => fy_hall_pops_of_empty room _ qs g2 h)
      (fun room qs g2 k2 => fy_hall_decomp room _ qs g2 k2) _ _ _ k

theorem fy_run_writes_ids (students : List Student) (rooms : List Room) (g : RNG) :
    (allocate_firstyear_seating students rooms g).writes.map (fun w => w.student_id) =
      (allocate_firstyear_seating students rooms g).pops.map
        (fun p => p.student.student_id) := by
  unfold allocate_firstyear_seating
  split
  · simp
  · refine roomsLoop_writes_ids _ _
      (fun room qs g2 h => fy_hall_pops_of_empty room _ qs g2 h)
      (fun room qs g2 => ?_) _ _ _
    rw [fy_hall_out_eq]
    simp [mkAssign, List.map_map, Function.comp]

theorem fy_run_starts_spec (students : List Student) (rooms : List Room) (g : RNG) :
    ∀ e ∈ (allocate_firstyear_seating students rooms g).starts,
      e.hadStudents = true ∧
      (e.fellBack = false → ∀ d, deptOf e.left0 = some d →
        is_compatible e.chosen d = true) := by
  unfold allocate_firstyear_seating
  split
  · intro e he
    cases he
  · exact roomsLoop_starts_spec _ _ _
      (fun room qs g2 e he => fy_hall_starts_spec room _ qs g2 e he) _ _ _

end FY

namespace Reg

theorem reg_hall_out_cells_pairwise (room : Room) (ks : List GroupKey)
    (qs : Groups GroupKey) (g : RNG) (hcols : room.cols ≤ 55231) :
    List.Pairwise (fun a b : Assign =>
      (a.col_index, a.row_index) ≠ (b.col_index, b.row_index) ∧ a.seat_no ≠ b.seat_no)
      (_assign_seats_for_hall room ks qs g).out := by
  rw [reg_hall_out_eq]
  refine List.pairwise_map.mpr ?_
  have hpair := fillCols_pops_pairwise (midSelect ks) (mkAssign room.room_no)
    (startSelect ks) room.rows room.cols 0
    (List.replicate room.rows (List.replicate room.cols none)) qs g
  have hrange := fillCols_pops_col_range (midSelect ks) (mkAssign room.room_no)
    (startSelect ks) room.rows room.cols 0
    (List.replicate room.rows (List.replicate room.cols none)) qs g
  refine hpair.imp_of_mem ?_
  intro p q hp hq hlt
  have hpb := (hrange p hp).2
  have hqb := (hrange q hq).2
  unfold cellLt at hlt
  constructor
  · intro hc
    simp only [mkAssign, Prod.mk.injEq] at hc
    rcases hlt with h | ⟨h1, h2⟩ <;> omega
  · intro hc
    simp only [mkAssign] at hc
    have := seat_label_inj (by omega) (by omega) hc
    rcases hlt with h | ⟨h1, h2⟩ <;> omega

end Reg

namespace FY

theorem fy_hall_out_cells_pairwise (room : Room) (ks : List GroupKey)
    (qs : Groups GroupKey) (g : RNG) (hcols : room.cols ≤ 55231) :
    List.Pairwise (fun a b : Assign =>
      (a.col_index, a.row_index) ≠ (b.col_index, b.row_index) ∧ a.seat_no ≠ b.seat_no)
      (_assign_seats_for_hall room ks qs g).out := by
  rw [fy_hall_out_eq]
  refine List.pairwise_map.mpr ?_
  have hpair := fillCols_pops_pairwise (midSelect ks) (mkAssign room.room_no)
    (startSelect ks) room.rows room.cols 0
    (List.replicate room.rows (List.replicate room.cols none)) qs g
  have hrange := fillCols_pops_col_range (midSelect ks) (mkAssign room.room_no)
    (startSelect ks) room.rows room.cols 0
    (List.replicate room.rows (List.replicate room.cols none)) qs g
  refine hpair.imp_of_mem ?_
  intro p q hp hq hlt
  have hpb := (hrange p hp).2
  have hqb := (hrange q hq).2
  unfold cellLt at hlt
  constructor
  · intro hc
    simp only [mkAssign, Prod.mk.injEq] at hc
    rcases hlt with h | ⟨h1, h2⟩ <;> omega
  · intro hc
    simp only [mkAssign] at hc
    have := seat_label_inj (by omega) (by omega) hc
    rcases hlt with h | ⟨h1, h2⟩ <;> omega

end FY

/-! ## University strategy: support lemmas -/

namespace Uni

/-- Scanning `(d + i) % len` for `i < len` reaches every residue. -/
theorem mod_shift_surj (len i d : Nat) (hlen : 0 < len) (hi : i < len) :
    ∃ j, j < len ∧ (d + j) % len = i := by
  have hd : d % len < len := Nat.mod_lt _ hlen
  by_cases hle : d % len ≤ i
  · refine ⟨i - d % len, by omega, ?_⟩
    rw [Nat.add_mod, Nat.mod_eq_of_lt (show i - d % len < len by omega)]
    have heq : d % len + (i - d % len) = i := by omega
    rw [heq, Nat.mod_eq_of_lt hi]
  · refine ⟨len - d % len + i, by omega, ?_⟩
    rw [Nat.add_mod, Nat.mod_eq_of_lt (show len - d % len + i < len by omega)]
    have heq : d % len + (len - d % len + i) = len + i := by omega
    rw [heq, Nat.add_mod_left, Nat.mod_eq_of_lt hi]

end Uni

namespace Uni

theorem uniSearch_none {dl : List String} {qs : Groups String} {di oi : Nat}
    (h : uniSearch dl qs di oi = none) :
    ∀ j < dl.length, j ≠ oi → glookup qs (dl.getD j "") = [] := by
  intro j hj hne
  unfold uniSearch at h
  rw [List.findSome?_eq_none] at h
  rcases mod_shift_surj dl.length j di (by omega) hj with ⟨i, hilt, hieq⟩
  have hbody := h i (List.mem_range.mpr hilt)
  rw [hieq] at hbody
  split at hbody
  · cases hbody
  · rename_i hcond
    have hb : (decide (j ≠ oi) && !(glookup qs (dl.getD j "")).isEmpty) = false := by
      cases hcc : (decide (j ≠ oi) && !(glookup qs (dl.getD j "")).isEmpty)
      · rfl
      · exact absurd hcc hcond
    rcases Bool.and_eq_false_iff.mp hb with hc | hc
    · rw [decide_eq_false_iff_not] at hc
      exact absurd hne hc
    · have hemp : (glookup qs (dl.getD j "")).isEmpty = true := by
        cases hq : (glookup qs (dl.getD j "")).isEmpty
        · rw [hq] at hc
          cases hc
        · rfl
      rwa [List.isEmpty_iff] at hemp

theorem uniSearch_some {dl : List String} {qs : Groups String} {di oi idx : Nat}
    (h : uniSearch dl qs di oi = some idx) :
    idx ≠ oi ∧ glookup qs (dl.getD idx "") ≠ [] ∧ idx < dl.length := by
  unfold uniSearch at h
  rcases List.exists_of_findSome?_eq_some h with ⟨i, hi, hbody⟩
  have hlen : 0 < dl.length := by
    rcases List.mem_range.mp hi with hlt
    omega
  split at hbody
  · rename_i hcond
    rw [Bool.and_eq_true] at hcond
    simp only [Option.some.injEq] at hbody
    subst hbody
    refine ⟨by simpa using hcond.1, ?_, Nat.mod_lt _ hlen⟩
    intro hc
    have := hcond.2
    rw [hc] at this
    simp at this
  · cases hbody

theorem uniEmit_eq {st : UniState} {idx : Nat} {s : Student} {tl : List Student}
    (hlook : glookup st.dept_queues (st.dept_list.getD idx "") = s :: tl)
    (slot_idx : Nat) (upd : Bool) (rn : String) (c r : Nat) :
    uniEmit st slot_idx idx upd rn c r =
      ⟨st.dept_list, gpop st.dept_queues (st.dept_list.getD idx ""),
        (if upd then slotSet st.active_slots slot_idx idx else st.active_slots),
        st.writes ++ [⟨s.student_id, rn, _seat_label c r,
          st.dept_list.getD idx "", c, r, s⟩]⟩ := by
  unfold uniEmit
  rw [hlook]

theorem slotGet_lt {slots : Nat × Nat} {len : Nat} (h1 : slots.1 < len)
    (h2 : slots.2 < len) (i : Nat) : slotGet slots i < len := by
  unfold slotGet
  split
  · exact h1
  · exact h2

/-- One cell either leaves the state unchanged (all queues empty) or pops
exactly one student from an in-range department and appends its write. -/
theorem uniCell_spec (st : UniState) (rn : String) (c r : Nat) (hwf : UniWF st) :
    (groupsTotal st.dept_queues = 0 ∧ uniCell st rn c r = st) ∨
    (∃ idx s tl slots2, idx < st.dept_list.length ∧
      glookup st.dept_queues (st.dept_list.getD idx "") = s :: tl ∧
      slots2.1 < st.dept_list.length ∧ slots2.2 < st.dept_list.length ∧
      uniCell st rn c r =
        ⟨st.dept_list, gpop st.dept_queues (st.dept_list.getD idx ""), slots2,
          st.writes ++ [⟨s.student_id, rn, _seat_label c r,
            st.dept_list.getD idx "", c, r, s⟩]⟩) := by
  rcases hwf with ⟨hnd, hmem, hs1, hs2⟩
  have hlen : 0 < st.dept_list.length := by omega
  unfold uniCell
  split
  · rename_i hemp
    rw [List.isEmpty_iff] at hemp
    split
    · rename_i next_idx hsearch
      rcases uniSearch_some hsearch with ⟨hne, hq, hlt⟩
      right
      rcases hq2 : glookup st.dept_queues (st.dept_list.getD next_idx "") with _ | ⟨s, tl⟩
      · exact absurd hq2 hq
      · refine ⟨next_idx, s, tl,
          (if true = true then slotSet st.active_slots (c % 2) next_idx
           else st.active_slots), hlt, hq2, ?_, ?_, ?_⟩
        · simp only [if_pos rfl]
          unfold slotSet
          by_cases hc2 : c % 2 = 0
          · rw [if_pos hc2]
            exact hlt
          · rw [if_neg hc2]
            exact hs1
        · simp only [if_pos rfl]
          unfold slotSet
          by_cases hc2 : c % 2 = 0
          · rw [if_pos hc2]
            exact hs2
          · rw [if_neg hc2]
            exact hlt
        · rw [uniEmit_eq hq2]
    · rename_i hsearch
      split
      · rename_i hother
        right
        have hob := slotGet_lt hs1 hs2 ((c % 2 + 1) % 2)
        rcases hq2 : glookup st.dept_queues
            (st.dept_list.getD (slotGet st.active_slots ((c % 2 + 1) % 2)) "") with _ | ⟨s, tl⟩
        · rw [hq2] at hother
          simp at hother
        · refine ⟨slotGet st.active_slots ((c % 2 + 1) % 2), s, tl,
            (if true = true then slotSet st.active_slots (c % 2)
              (slotGet st.active_slots ((c % 2 + 1) % 2)) else st.active_slots),
            hob, hq2, ?_, ?_, ?_⟩
          · simp only [if_pos rfl]
            unfold slotSet
            by_cases hc2 : c % 2 = 0
            · rw [if_pos hc2]
              exact hob
            · rw [if_neg hc2]
              exact hs1
          · simp only [if_pos rfl]
            unfold slotSet
            by_cases hc2 : c % 2 = 0
            · rw [if_pos hc2]
              exact hs2
            · rw [if_neg hc2]
              exact hob
          · rw [uniEmit_eq hq2]
      · rename_i hother
        left
        refine ⟨?_, rfl⟩
        apply groupsTotal_zero_of_lookups hnd
        intro k hk
        rcases List.mem_map.mp hk with ⟨e, he, rfl⟩
        have hkdl := hmem e he
        rcases List.mem_iff_getElem.mp hkdl with ⟨j, hj, hje⟩
        have hgetd : st.dept_list.getD j "" = e.1 := by
          rw [List.getD_eq_getElem _ _ hj, hje]
        by_cases hjo : j = slotGet st.active_slots ((c % 2 + 1) % 2)
        · rw [← hgetd, hjo]
          simp only [Bool.not_eq_true] at hother
          rcases hq2 : glookup st.dept_queues
              (st.dept_list.getD (slotGet st.active_slots ((c % 2 + 1) % 2)) "") with _ | _
          · rfl
          · rw [hq2] at hother
            simp at hother
        · rw [← hgetd]
          exact uniSearch_none hsearch j hj hjo
  · rename_i hcur
    right
    have hcb := slotGet_lt hs1 hs2 (c % 2)
    rcases hq2 : glookup st.dept_queues
        (st.dept_list.getD (slotGet st.active_slots (c % 2)) "") with _ | ⟨s, tl⟩
    · rw [hq2] at hcur
      simp at hcur
    · refine ⟨slotGet st.active_slots (c % 2), s, tl, st.active_slots, hcb, hq2,
        hs1, hs2, ?_⟩
      rw [uniEmit_eq hq2]
      simp

end Uni

theorem glookup_gpop_empty {κ : Type} [DecidableEq κ] {gs : Groups κ} {k : κ}
    (k0 : κ) (h : glookup gs k = []) : glookup (gpop gs k0) k = [] := by
  by_cases hk : k = k0
  · subst hk
    rw [glookup_gpop_self, h]
    rfl
  · rw [glookup_gpop_ne _ hk]
    exact h

theorem groupsTotal_pos_of_lookup {κ : Type} [DecidableEq κ] {gs : Groups κ}
    {k : κ} {s : Student} {tl : List Student}
    (h : glookup gs k = s :: tl) : 0 < groupsTotal gs := by
  unfold glookup at h
  rcases hf : gs.find? (fun e => decide (e.1 = k)) with _ | e
  · rw [hf] at h
    cases h
  · rw [hf] at h
    have h2 : e.2 = s :: tl := h
    have hmem := List.mem_of_find?_eq_some hf
    have hml : e.2.length ∈ gs.map (fun e => e.2.length) :=
      List.mem_map.mpr ⟨e, hmem, rfl⟩
    have hle := List.single_le_sum (fun x _ => Nat.zero_le x) _ hml
    unfold groupsTotal
    rw [h2] at hle
    simp only [List.length_cons] at hle
    omega

namespace Uni

theorem gpop_mem_dept {st : UniState} (hmem : ∀ e ∈ st.dept_queues, e.1 ∈ st.dept_list)
    (k0 : String) : ∀ e ∈ gpop st.dept_queues k0, e.1 ∈ st.dept_list := by
  intro e he
  have : e.1 ∈ (gpop st.dept_queues k0).map (fun e => e.1) :=
    List.mem_map.mpr ⟨e, he, rfl⟩
  rw [gpop_keys] at this
  rcases List.mem_map.mp this with ⟨f, hf, hfe⟩
  rw [← hfe]
  exact hmem f hf

theorem uniCell_wf {st : UniState} (rn : String) (c r : Nat) (hwf : UniWF st) :
    UniWF (uniCell st rn c r) ∧ (uniCell st rn c r).dept_list = st.dept_list := by
  rcases uniCell_spec st rn c r hwf with ⟨_, heq⟩ | ⟨idx, s, tl, slots2, hidx, hlook, hb1, hb2, heq⟩
  · rw [heq]
    exact ⟨hwf, rfl⟩
  · rw [heq]
    refine ⟨⟨?_, ?_, hb1, hb2⟩, rfl⟩
    · show ((gpop st.dept_queues _).map (fun e => e.1)).Nodup
      rw [gpop_keys]
      exact hwf.1
    · exact gpop_mem_dept hwf.2.1 _

theorem slotSet_parts (slots : Nat × Nat) (slot_idx v : Nat) (hsi : slot_idx < 2) :
    (slot_idx = 0 ∧ slotSet slots slot_idx v = (v, slots.2)) ∨
    (slot_idx = 1 ∧ slotSet slots slot_idx v = (slots.1, v)) := by
  unfold slotSet
  by_cases h : slot_idx = 0
  · left
    rw [if_pos h]
    exact ⟨h, rfl⟩
  · right
    rw [if_neg h]
    exact ⟨by omega, rfl⟩

theorem slotGet_other {slots : Nat × Nat} {c : Nat} :
    (c % 2 = 0 ∧ slotGet slots (c % 2) = slots.1 ∧
      slotGet slots ((c % 2 + 1) % 2) = slots.2) ∨
    (c % 2 = 1 ∧ slotGet slots (c % 2) = slots.2 ∧
      slotGet slots ((c % 2 + 1) % 2) = slots.1) := by
  have h2 : c % 2 = 0 ∨ c % 2 = 1 := by omega
  rcases h2 with h2 | h2
  · left
    refine ⟨h2, ?_, ?_⟩
    · unfold slotGet
      rw [if_pos h2]
    · unfold slotGet
      rw [h2]
      rfl
  · right
    refine ⟨h2, ?_, ?_⟩
    · unfold slotGet
      rw [h2]
      rfl
    · unfold slotGet
      rw [h2]
      rfl

theorem uniCell_slotsInv {st : UniState} (rn : String) (c r : Nat)
    (hwf : UniWF st) (hinv : SlotsInv st) : SlotsInv (uniCell st rn c r) := by
  rcases hwf with ⟨hnd, hmem, hs1, hs2⟩
  unfold uniCell
  split
  · rename_i hemp
    split
    · rename_i next_idx hsearch
      rcases uniSearch_some hsearch with ⟨hne, hq, hlt⟩
      rcases hq2 : glookup st.dept_queues (st.dept_list.getD next_idx "") with _ | ⟨s, tl⟩
      · exact absurd hq2 hq
      · rw [uniEmit_eq hq2]
        unfold SlotsInv
        simp only [if_pos rfl]
        intro habs
        exfalso
        rcases Nat.mod_two_eq_zero_or_one c with hc2 | hc2 <;>
          rw [hc2] at habs hne <;>
          simp only [slotSet, slotGet, if_pos rfl] at habs hne <;>
          norm_num at habs hne <;>
          first
          | exact hne habs
          | exact hne habs.symm
    · rename_i hsearch
      split
      · rename_i hother
        rcases hq2 : glookup st.dept_queues
            (st.dept_list.getD (slotGet st.active_slots ((c % 2 + 1) % 2)) "") with _ | ⟨s, tl⟩
        · rw [hq2] at hother
          simp at hother
        · rw [uniEmit_eq hq2]
          unfold SlotsInv
          simp only [if_pos rfl]
          intro _ i hi hine
          apply glookup_gpop_empty
          apply uniSearch_none hsearch i hi
          rcases Nat.mod_two_eq_zero_or_one c with hc2 | hc2 <;>
            rw [hc2] at hine ⊢ <;>
            simp only [slotSet, slotGet, if_pos rfl] at hine ⊢ <;>
            norm_num at hine ⊢ <;>
            exact hine
      · exact hinv
  · rename_i hcur
    rcases hq2 : glookup st.dept_queues
        (st.dept_list.getD (slotGet st.active_slots (c % 2)) "") with _ | ⟨s, tl⟩
    · rw [hq2] at hcur
      simp at hcur
    · rw [uniEmit_eq hq2]
      unfold SlotsInv
      simp only [Bool.false_eq_true, if_false]
      intro heqslots i hi hine
      apply glookup_gpop_empty
      exact hinv heqslots i hi hine

end Uni

namespace Uni

theorem uniRunCells_nil (st : UniState) : uniRunCells st [] = st := rfl

theorem uniRunCells_cons (st : UniState) (cd : String × Nat × Nat)
    (rest : List (String × Nat × Nat)) :
    uniRunCells st (cd :: rest) =
      uniRunCells (uniCell st cd.1 cd.2.1 cd.2.2) rest := rfl

/-- Master fold lemma: the university run writes exactly the first
`min (students remaining) (cells remaining)` visited cells, labels every
write with its cell, and consumes each department queue front-to-back. -/
theorem uniRun_spec :
    ∀ (cells : List (String × Nat × Nat)) (st : UniState), UniWF st →
      UniWF (uniRunCells st cells) ∧
      (uniRunCells st cells).dept_list = st.dept_list ∧
      ∃ delta, (uniRunCells st cells).writes = st.writes ++ delta ∧
        delta.map (fun w => (w.room_no, w.col_index, w.row_index)) =
          cells.take (min (groupsTotal st.dept_queues) cells.length) ∧
        (∀ w ∈ delta, w.seat_no = _seat_label w.col_index w.row_index ∧
          w.student_id = w.student.student_id) ∧
        (∀ k, glookup st.dept_queues k =
          (delta.filter (fun w => decide (w.dept = k))).map (fun w => w.student) ++
          glookup (uniRunCells st cells).dept_queues k) := by
  intro cells
  induction cells with
  | nil =>
    intro st hwf
    rw [uniRunCells_nil]
    refine ⟨hwf, rfl, [], by simp, by simp, by simp, fun k => by simp⟩
  | cons cd rest ih =>
    intro st hwf
    rw [uniRunCells_cons]
    rcases uniCell_spec st cd.1 cd.2.1 cd.2.2 hwf with
      ⟨htotal, heq⟩ | ⟨idx, s, tl, slots2, hidx, hlook, hb1, hb2, heq⟩
    · rw [heq]
      rcases ih st hwf with ⟨hwfF, hdlF, delta, hw, hmap, hlab, hdec⟩
      refine ⟨hwfF, hdlF, delta, hw, ?_, hlab, hdec⟩
      rw [htotal] at hmap ⊢
      simpa using hmap
    · rw [heq]
      have hwf1 : UniWF ⟨st.dept_list,
          gpop st.dept_queues (st.dept_list.getD idx ""), slots2,
          st.writes ++ [⟨s.student_id, cd.1, _seat_label cd.2.1 cd.2.2,
            st.dept_list.getD idx "", cd.2.1, cd.2.2, s⟩]⟩ := by
        refine ⟨?_, ?_, hb1, hb2⟩
        · show ((gpop st.dept_queues _).map (fun e => e.1)).Nodup
          rw [gpop_keys]
          exact hwf.1
        · exact gpop_mem_dept hwf.2.1 _
      rcases ih _ hwf1 with ⟨hwfF, hdlF, delta, hw, hmap, hlab, hdec⟩
      have htpos : 0 < groupsTotal st.dept_queues := groupsTotal_pos_of_lookup hlook
      have htpop : groupsTotal (gpop st.dept_queues (st.dept_list.getD idx "")) + 1 =
          groupsTotal st.dept_queues := groupsTotal_gpop hwf.1 hlook
      refine ⟨hwfF, hdlF,
        ⟨s.student_id, cd.1, _seat_label cd.2.1 cd.2.2,
          st.dept_list.getD idx "", cd.2.1, cd.2.2, s⟩ :: delta, ?_, ?_, ?_, ?_⟩
      · rw [hw]
        simp
      · simp only [List.map_cons]
        rw [hmap]
        have hmin : min (groupsTotal st.dept_queues) (rest.length + 1) =
            min (groupsTotal (gpop st.dept_queues (st.dept_list.getD idx "")))
              rest.length + 1 := by omega
        simp only [List.length_cons, hmin, List.take_succ_cons]
      · intro w hw2
        rcases List.mem_cons.mp hw2 with hw2 | hw2
        · subst hw2
          exact ⟨rfl, rfl⟩
        · exact hlab w hw2
      · intro k
        by_cases hk : st.dept_list.getD idx "" = k
        · subst hk
          rw [hlook]
          simp only [List.filter_cons, decide_eq_true_eq, if_pos rfl, List.map_cons,
            List.cons_append]
          congr 1
          have := hdec (st.dept_list.getD idx "")
          rw [show (⟨st.dept_list,
              gpop st.dept_queues (st.dept_list.getD idx ""), slots2, _⟩ :
              UniState).dept_queues =
              gpop st.dept_queues (st.dept_list.getD idx "") from rfl] at this
          rw [glookup_gpop_self, hlook] at this
          exact this
        · simp only [List.filter_cons]
          rw [if_neg (by simpa using hk)]
          have := hdec k
          rw [show (⟨st.dept_list,
              gpop st.dept_queues (st.dept_list.getD idx ""), slots2, _⟩ :
              UniState).dept_queues =
              gpop st.dept_queues (st.dept_list.getD idx "") from rfl] at this
          rw [glookup_gpop_ne _ (fun hc => hk hc.symm)] at this
          exact this

end Uni

namespace Uni

theorem uniDeptList_eq_nil (students : List Student) :
    uniDeptList students = [] ↔ students = [] := by
  unfold uniDeptList
  constructor
  · intro h
    have hkeys : (uniDeptQueues students).map (fun e => e.1) = [] := by
      have := List.perm_insertionSort strLe
        ((uniDeptQueues students).map (fun e => e.1))
      rw [h] at this
      exact List.Perm.eq_nil this.symm
    have hq : uniDeptQueues students = [] := List.map_eq_nil_iff.mp hkeys
    unfold uniDeptQueues at hq
    rw [buildGroups_eq_nil] at hq
    rcases List.map_eq_nil_iff.mp hq with h2
    have := List.perm_insertionSort sidLe students
    rw [h2] at this
    exact (List.Perm.nil_eq this).symm
  · intro h
    subst h
    rfl

end Uni

namespace Uni

theorem uniDeptList_nodup (students : List Student) : (uniDeptList students).Nodup := by
  unfold uniDeptList
  have := buildGroups_keys_nodup (fun s : Student => s.dept)
    ((List.insertionSort sidLe students).map clearFields)
  exact ((List.perm_insertionSort strLe _).nodup_iff).mpr this

theorem uniInit_wf (students : List Student) (h : uniDeptList students ≠ []) :
    UniWF (uniInitState students) := by
  have hlen : 0 < (uniDeptList students).length := List.length_pos.mpr h
  refine ⟨?_, ?_, ?_, ?_⟩
  · exact buildGroups_keys_nodup _ _
  · intro e he
    show e.1 ∈ uniDeptList students
    unfold uniDeptList
    rw [List.mem_insertionSort]
    exact List.mem_map.mpr ⟨e, he, rfl⟩
  · exact hlen
  · show (if (uniDeptList students).length > 1 then 1 else 0) <
      (uniDeptList students).length
    split <;> omega

theorem uniInit_slotsInv (students : List Student) : SlotsInv (uniInitState students) := by
  unfold SlotsInv uniInitState
  intro habs i hi hine
  simp only at habs hine ⊢
  by_cases hlen : (uniDeptList students).length > 1
  · rw [if_pos hlen] at habs
    cases habs
  · rw [if_neg hlen] at habs
    simp only at hi hine
    omega

theorem uniInit_total (students : List Student) :
    groupsTotal (uniInitState students).dept_queues = students.length := by
  show groupsTotal (uniDeptQueues students) = students.length
  unfold uniDeptQueues
  rw [buildGroups_total, List.length_map, List.length_insertionSort]

theorem roomCells_length (room : Room) :
    (roomCells room).length = room.rows * room.cols := by
  unfold roomCells
  rw [List.length_flatMap]
  have hmap : (List.range room.cols).map
      (List.length ∘ fun c => (List.range room.rows).map (fun r => (room.room_no, c, r))) =
      (List.range room.cols).map (fun _ => room.rows) := by
    apply List.map_congr_left
    intro c _
    simp [Function.comp, List.length_map, List.length_range]
  rw [hmap]
  simp [Nat.mul_comm]

theorem uniCells_length (rooms : List Room) :
    (uniCells rooms).length = (rooms.map (fun rm => rm.rows * rm.cols)).sum := by
  unfold uniCells
  rw [List.length_flatMap]
  congr 1
  apply List.map_congr_left
  intro rm _
  show (roomCells rm).length = rm.rows * rm.cols
  exact roomCells_length rm

end Uni

namespace Uni

theorem mem_roomCells {room : Room} {cell : String × Nat × Nat}
    (h : cell ∈ roomCells room) :
    cell.1 = room.room_no ∧ cell.2.1 < room.cols ∧ cell.2.2 < room.rows := by
  unfold roomCells at h
  rcases List.mem_flatMap.mp h with ⟨c, hc, hcell⟩
  rcases List.mem_map.mp hcell with ⟨r, hr, hrc⟩
  rw [← hrc]
  exact ⟨rfl, List.mem_range.mp hc, List.mem_range.mp hr⟩

theorem mem_uniCells {rooms : List Room} {cell : String × Nat × Nat}
    (h : cell ∈ uniCells rooms) :
    ∃ room ∈ rooms, cell.1 = room.room_no ∧ cell.2.1 < room.cols ∧
      cell.2.2 < room.rows := by
  unfold uniCells at h
  rcases List.mem_flatMap.mp h with ⟨room, hroom, hcell⟩
  exact ⟨room, hroom, mem_roomCells hcell⟩

theorem roomCells_nodup (room : Room) : (roomCells room).Nodup := by
  unfold roomCells
  rw [List.nodup_flatMap]
  constructor
  · intro c _
    refine List.Nodup.map ?_ (List.nodup_range _)
    intro r1 r2 h
    simpa using h
  · have hnd : List.Pairwise (fun a b : Nat => a ≠ b) (List.range room.cols) :=
      List.nodup_range _
    refine hnd.imp ?_
    intro a b hab
    intro x hx1 hx2
    rcases List.mem_map.mp hx1 with ⟨r1, _, h1⟩
    rcases List.mem_map.mp hx2 with ⟨r2, _, h2⟩
    rw [← h1] at h2
    have hba : b = a := by
      have := congrArg (fun p : String × Nat × Nat => p.2.1) h2
      simpa using this
    exact hab hba.symm

theorem uniCells_nodup {rooms : List Room}
    (hnd : (rooms.map (fun rm => rm.room_no)).Nodup) : (uniCells rooms).Nodup := by
  unfold uniCells
  rw [List.nodup_flatMap]
  refine ⟨fun rm _ => roomCells_nodup rm, ?_⟩
  have hne : List.Pairwise (fun a b : Room => a.room_no ≠ b.room_no) rooms :=
    List.pairwise_map.mp hnd
  refine hne.imp ?_
  intro a b hab
  intro x hx1 hx2
  have h1 := (mem_roomCells hx1).1
  have h2 := (mem_roomCells hx2).1
  exact hab (h1 ▸ h2 ▸ rfl)

/-- Packaged run-level facts about the university write log. -/
theorem run_writes_spec (students : List Student) (rooms : List Room) :
    ((allocate_university_seating students rooms).2.map
        (fun w => (w.room_no, w.col_index, w.row_index)) =
      (uniCells (List.insertionSort roomLe rooms)).take
        (min students.length (uniCells (List.insertionSort roomLe rooms)).length)) ∧
    (∀ w ∈ (allocate_university_seating students rooms).2,
      w.seat_no = _seat_label w.col_index w.row_index ∧
      w.student_id = w.student.student_id) ∧
    (students ≠ [] → ∀ k, glookup (uniDeptQueues students) k =
      (((allocate_university_seating students rooms).2.filter
        (fun w => decide (w.dept = k))).map (fun w => w.student)) ++
      glookup (uniRunCells (uniInitState students)
        (uniCells (List.insertionSort roomLe rooms))).dept_queues k) := by
  unfold allocate_university_seating
  split
  · rename_i hguard
    rw [List.isEmpty_iff, uniDeptList_eq_nil] at hguard
    subst hguard
    refine ⟨?_, by simp, by simp⟩
    simp
  · rename_i hguard
    rw [List.isEmpty_iff] at hguard
    have hne : uniDeptList students ≠ [] := hguard
    have hwf := uniInit_wf students hne
    rcases uniRun_spec (uniCells (List.insertionSort roomLe rooms))
      (uniInitState students) hwf with ⟨_, _, delta, hw, hmap, hlab, hdec⟩
    have hwr : (uniRunCells (uniInitState students)
        (uniCells (List.insertionSort roomLe rooms))).writes = delta := by
      rw [hw]
      rfl
    rw [uniInit_total] at hmap
    refine ⟨?_, ?_, ?_⟩
    · show (uniRunCells (uniInitState students)
        (uniCells (List.insertionSort roomLe rooms))).writes.map
          (fun w => (w.room_no, w.col_index, w.row_index)) = _
      rw [hwr, hmap]
    · intro w hwmem
      rw [hwr] at hwmem
      exact hlab w hwmem
    · intro _ k
      have := hdec k
      rw [← hwr] at this
      exact this

end Uni

namespace Uni

theorem uni_queue_sorted (students : List Student) (k : String) :
    List.Pairwise sidLe (glookup (uniDeptQueues students) k) := by
  unfold uniDeptQueues
  rw [buildGroups_lookup]
  have hsorted : List.Pairwise sidLe (List.insertionSort sidLe students) :=
    List.sorted_insertionSort sidLe _
  have hmapped : List.Pairwise sidLe
      ((List.insertionSort sidLe students).map clearFields) := by
    rw [List.pairwise_map]
    exact hsorted.imp (fun h => h)
  exact List.Pairwise.sublist (List.filter_sublist _) hmapped

/-- Fold-level preservation of WF and the C8 invariant. -/
theorem uniRun_inv :
    ∀ (cells : List (String × Nat × Nat)) (st : UniState),
      UniWF st → SlotsInv st →
      UniWF (uniRunCells st cells) ∧ SlotsInv (uniRunCells st cells) ∧
      (uniRunCells st cells).dept_list = st.dept_list := by
  intro cells
  induction cells with
  | nil =>
    intro st hwf hinv
    rw [uniRunCells_nil]
    exact ⟨hwf, hinv, rfl⟩
  | cons cd rest ih =>
    intro st hwf hinv
    rw [uniRunCells_cons]
    rcases uniCell_wf cd.1 cd.2.1 cd.2.2 hwf with ⟨hwf1, hdl1⟩
    rcases ih _ hwf1 (uniCell_slotsInv cd.1 cd.2.1 cd.2.2 hwf hinv) with ⟨h1, h2, h3⟩
    exact ⟨h1, h2, h3.trans hdl1⟩

theorem empty_run (rooms : List Room) :
    allocate_university_seating [] rooms = ("No students found.", []) := rfl

end Uni

/-! ## Claims -/

/-- C6: the first-year compatibility predicate judges two cohorts
incompatible exactly when their departments are identical (case-sensitive)
or their unordered upper-cased department pair equals {CSE, AIML} or
{ECE, EEE}; all other pairs — including strings differing only in letter
case — are compatible. -/
theorem c6_is_compatible_iff (dept_a dept_b : String) :
    FY.is_compatible dept_a dept_b = false ↔
      dept_a = dept_b ∨
      (upper dept_a = "CSE" ∧ upper dept_b = "AIML") ∨
      (upper dept_a = "AIML" ∧ upper dept_b = "CSE") ∨
      (upper dept_a = "ECE" ∧ upper dept_b = "EEE") ∨
      (upper dept_a = "EEE" ∧ upper dept_b = "ECE") := by
  unfold FY.is_compatible FY.FORBIDDEN_PAIRS
  by_cases hab : dept_a = dept_b
  · simp [hab]
  · rw [if_neg hab]
    simp only [List.any_cons, List.any_nil, Bool.or_false, Bool.or_eq_true,
      Bool.and_eq_true, decide_eq_true_eq]
    constructor
    · intro h
      split at h
      · rename_i hcond
        rcases hcond with ⟨h1 | h1, h2 | h2⟩ | ⟨h1 | h1, h2 | h2⟩
        · exact absurd (h1.trans h2.symm) (by decide)
        · exact Or.inr (Or.inl ⟨h1.symm, h2.symm⟩)
        · exact Or.inr (Or.inr (Or.inl ⟨h2.symm, h1.symm⟩))
        · exact absurd (h1.trans h2.symm) (by decide)
        · exact absurd (h1.trans h2.symm) (by decide)
        · exact Or.inr (Or.inr (Or.inr (Or.inl ⟨h1.symm, h2.symm⟩)))
        · exact Or.inr (Or.inr (Or.inr (Or.inr ⟨h2.symm, h1.symm⟩)))
        · exact absurd (h1.trans h2.symm) (by decide)
      · simp at h
    · intro h
      rcases h with h | ⟨h1, h2⟩ | ⟨h1, h2⟩ | ⟨h1, h2⟩ | ⟨h1, h2⟩
      · exact absurd h hab
      · rw [if_pos (Or.inl ⟨Or.inl h1.symm, Or.inr h2.symm⟩)]
      · rw [if_pos (Or.inl ⟨Or.inr h2.symm, Or.inl h1.symm⟩)]
      · rw [if_pos (Or.inr ⟨Or.inl h1.symm, Or.inr h2.symm⟩)]
      · rw [if_pos (Or.inr ⟨Or.inr h2.symm, Or.inl h1.symm⟩)]

namespace Uni

/-- The university write log, recast as a pop trace: per department, the
written students in write order followed by the final queue reconstitute
the fetched queue. -/
theorem run_pop_decomp (students : List Student) (rooms : List Room)
    (hne : students ≠ []) (k : String) :
    glookup (buildGroups (fun s : Student => s.dept)
        ((List.insertionSort sidLe students).map clearFields)) k =
      (((allocate_university_seating students rooms).2.map
          (fun w => (⟨w.dept, w.student, w.col_index, w.row_index⟩ : Pop String))).filter
        (fun p => decide (p.key = k))).map (fun p => p.student) ++
      glookup (uniRunCells (uniInitState students)
        (uniCells (List.insertionSort roomLe rooms))).dept_queues k := by
  have h := (run_writes_spec students rooms).2.2 hne k
  rw [List.filter_map, List.map_map]
  exact h

end Uni

/-- C10: in the university strategy the write log covers exactly the first
`min (number of students) (total number of grid cells)` cells of the run's
visit sequence — rooms ascending by `room_no`, each room column by column,
top to bottom — so a cell is left without an assignment only once every
department queue is exhausted, rooms are filled to completion in ascending
room order, and the number of assignments is the minimum of the student
count and the summed room capacities in cells. -/
theorem c10_university_fill_count (students : List Student) (rooms : List Room) :
    (Uni.allocate_university_seating students rooms).2.map
        (fun w => (w.room_no, w.col_index, w.row_index)) =
      (Uni.uniCells (List.insertionSort roomLe rooms)).take
        (min students.length (Uni.uniCells (List.insertionSort roomLe rooms)).length) ∧
    (Uni.allocate_university_seating students rooms).2.length =
      min students.length ((rooms.map (fun rm => rm.rows * rm.cols)).sum) := by
  have h1 := (Uni.run_writes_spec students rooms).1
  refine ⟨h1, ?_⟩
  have hlen := congrArg List.length h1
  rw [List.length_map, List.length_take] at hlen
  rw [hlen, Uni.uniCells_length]
  have hsum : ((List.insertionSort roomLe rooms).map (fun rm => rm.rows * rm.cols)).sum =
      (rooms.map (fun rm => rm.rows * rm.cols)).sum :=
    ((List.perm_insertionSort roomLe rooms).map _).sum_eq
  rw [hsum]
  omega

/-- C1: in every strategy (given distinct room identifiers and column
counts within the seat-label alphabet's range), the assignments emitted for
one room occupy pairwise distinct (column, row) grid cells, and hence carry
pairwise distinct seat labels. -/
theorem c1_distinct_cells (students : List Student) (rooms : List Room) (g : RNG)
    (hnd : (rooms.map (fun rm => rm.room_no)).Nodup)
    (hcols : ∀ rm ∈ rooms, rm.cols ≤ 55231) :
    (∀ e ∈ (Reg.allocate_exam_seating_for_db students rooms g).halls,
      List.Pairwise (fun a b : Reg.Assign =>
        (a.col_index, a.row_index) ≠ (b.col_index, b.row_index) ∧ a.seat_no ≠ b.seat_no)
        e.2) ∧
    (∀ e ∈ (FY.allocate_firstyear_seating students rooms g).halls,
      List.Pairwise (fun a b : FY.Assign =>
        (a.col_index, a.row_index) ≠ (b.col_index, b.row_index) ∧ a.seat_no ≠ b.seat_no)
        e.2) ∧
    List.Pairwise (fun a b : Uni.UniWrite => a.room_no = b.room_no →
        (a.col_index, a.row_index) ≠ (b.col_index, b.row_index) ∧ a.seat_no ≠ b.seat_no)
      (Uni.allocate_university_seating students rooms).2 := by
  refine ⟨?_, ?_, ?_⟩
  · unfold Reg.allocate_exam_seating_for_db
    split
    · intro e he
      cases he
    · intro e he
      have hnd2 : ((shuffleWith g rooms).1.map (fun rm => rm.room_no)).Nodup :=
        shuffleWith_nodup_map _ rooms g hnd
      rcases roomsLoop_halls_are_hall_outs _ _ (shuffleWith g rooms).1 _ _ hnd2 e he with
        ⟨room, qs2, g2, hm, _, h2⟩
      rw [h2]
      exact Reg.reg_hall_out_cells_pairwise room _ qs2 g2 (hcols room (shuffleWith_mem hm))
  · unfold FY.allocate_firstyear_seating
    split
    · intro e he
      cases he
    · intro e he
      have hnd2 : ((List.insertionSort roomLe rooms).map (fun rm => rm.room_no)).Nodup :=
        ((List.perm_insertionSort roomLe rooms).map _).nodup_iff.mpr hnd
      rcases roomsLoop_halls_are_hall_outs _ _ (List.insertionSort roomLe rooms) _ _
        hnd2 e he with ⟨room, qs2, g2, hm, _, h2⟩
      rw [h2]
      exact FY.fy_hall_out_cells_pairwise room _ qs2 g2
        (hcols room ((List.mem_insertionSort roomLe).mp hm))
  · have h1 := (Uni.run_writes_spec students rooms).1
    have hlab := (Uni.run_writes_spec students rooms).2.1
    have hnd2 : ((List.insertionSort roomLe rooms).map (fun rm => rm.room_no)).Nodup :=
      ((List.perm_insertionSort roomLe rooms).map _).nodup_iff.mpr hnd
    have hndcells : (Uni.uniCells (List.insertionSort roomLe rooms)).Nodup :=
      Uni.uniCells_nodup hnd2
    have hndtake : ((Uni.uniCells (List.insertionSort roomLe rooms)).take
        (min students.length
          (Uni.uniCells (List.insertionSort roomLe rooms)).length)).Nodup :=
      (List.take_sublist _ _).nodup hndcells
    have hndmap : ((Uni.allocate_university_seating students rooms).2.map
        (fun w => (w.room_no, w.col_index, w.row_index))).Nodup := by
      rw [h1]
      exact hndtake
    have hpw : List.Pairwise (fun a b : Uni.UniWrite =>
        (a.room_no, a.col_index, a.row_index) ≠ (b.room_no, b.col_index, b.row_index))
        (Uni.allocate_university_seating students rooms).2 :=
      List.pairwise_map.mp hndmap
    have hbound : ∀ w ∈ (Uni.allocate_university_seating students rooms).2,
        w.col_index < 55231 := by
      intro w hw
      have hcell : (w.room_no, w.col_index, w.row_index) ∈
          (Uni.uniCells (List.insertionSort roomLe rooms)).take
            (min students.length
              (Uni.uniCells (List.insertionSort roomLe rooms)).length) := by
        rw [← h1]
        exact List.mem_map_of_mem _ hw
      have hcell2 := List.take_subset _ _ hcell
      rcases Uni.mem_uniCells hcell2 with ⟨room, hroom, _, hc, _⟩
      have := hcols room ((List.mem_insertionSort roomLe).mp hroom)
      simp only at hc
      omega
    refine hpw.imp_of_mem ?_
    intro a b ha hb hne hrn
    constructor
    · intro hc
      simp only [Prod.mk.injEq] at hc
      exact hne (by rw [hrn, hc.1, hc.2])
    · intro hc
      have hsa := (hlab a ha).1
      have hsb := (hlab b hb).1
      rw [hsa, hsb] at hc
      have hba := hbound a ha
      have hbb := hbound b hb
      have := seat_label_inj (by omega) (by omega) hc
      exact hne (by rw [hrn, this.1, this.2])

/-- Closed instance of the C1 theorem: both hypotheses checked by `decide`
at a concrete two-room, two-cohort input. -/
theorem c1_distinct_cells_witness :
    (∀ e ∈ (Reg.allocate_exam_seating_for_db
        [⟨"S1", "CSE", 1, "A", none, none⟩, ⟨"S2", "ECE", 2, "B", none, none⟩]
        [⟨"R1", 4, 2, 2⟩, ⟨"R2", 2, 1, 2⟩] (fun _ => 0)).halls,
      List.Pairwise (fun a b : Reg.Assign =>
        (a.col_index, a.row_index) ≠ (b.col_index, b.row_index) ∧ a.seat_no ≠ b.seat_no)
        e.2) ∧
    (∀ e ∈ (FY.allocate_firstyear_seating
        [⟨"S1", "CSE", 1, "A", none, none⟩, ⟨"S2", "ECE", 2, "B", none, none⟩]
        [⟨"R1", 4, 2, 2⟩, ⟨"R2", 2, 1, 2⟩] (fun _ => 0)).halls,
      List.Pairwise (fun a b : FY.Assign =>
        (a.col_index, a.row_index) ≠ (b.col_index, b.row_index) ∧ a.seat_no ≠ b.seat_no)
        e.2) ∧
    List.Pairwise (fun a b : Uni.UniWrite => a.room_no = b.room_no →
        (a.col_index, a.row_index) ≠ (b.col_index, b.row_index) ∧ a.seat_no ≠ b.seat_no)
      (Uni.allocate_university_seating
        [⟨"S1", "CSE", 1, "A", none, none⟩, ⟨"S2", "ECE", 2, "B", none, none⟩]
        [⟨"R1", 4, 2, 2⟩, ⟨"R2", 2, 1, 2⟩]).2 :=
  c1_distinct_cells
    [⟨"S1", "CSE", 1, "A", none, none⟩, ⟨"S2", "ECE", 2, "B", none, none⟩]
    [⟨"R1", 4, 2, 2⟩, ⟨"R2", 2, 1, 2⟩] (fun _ => 0) (by decide) (by decide)

/-- C2: in every strategy, when the input students carry pairwise distinct
identifiers, the emitted write log mentions each student identifier at most
once — no student is seated twice in a run. -/
theorem c2_no_double_seating (students : List Student) (rooms : List Room) (g : RNG)
    (hnd : (students.map (fun s => s.student_id)).Nodup) :
    ((Reg.allocate_exam_seating_for_db students rooms g).writes.map
        (fun w => w.student_id)).Nodup ∧
    ((FY.allocate_firstyear_seating students rooms g).writes.map
        (fun w => w.student_id)).Nodup ∧
    ((Uni.allocate_university_seating students rooms).2.map
        (fun w => w.student_id)).Nodup := by
  refine ⟨?_, ?_, ?_⟩
  · have hndReg : ((List.insertionSort regCursorLe
        (students.filter (fun s => s.room_no.isNone))).map
          (fun s => s.student_id)).Nodup := by
      have hsub : ((students.filter (fun s => s.room_no.isNone)).map
          (fun s => s.student_id)).Nodup :=
        ((List.filter_sublist students).map _).nodup hnd
      exact ((List.perm_insertionSort regCursorLe _).map _).nodup_iff.mpr hsub
    rw [Reg.reg_run_writes_ids]
    exact pops_nodup_ids_of_decomp Reg.groupKeyOf _ _ _
      (fun k => Reg.reg_run_decomp students rooms g k) hndReg
  · have hndFY : ((List.insertionSort sidLe
        (students.filter (fun s => s.room_no.isNone))).map
          (fun s => s.student_id)).Nodup := by
      have hsub : ((students.filter (fun s => s.room_no.isNone)).map
          (fun s => s.student_id)).Nodup :=
        ((List.filter_sublist students).map _).nodup hnd
      exact ((List.perm_insertionSort sidLe _).map _).nodup_iff.mpr hsub
    rw [FY.fy_run_writes_ids]
    exact pops_nodup_ids_of_decomp (fun s : Student => upper s.dept) _ _ _
      (fun k => FY.fy_run_decomp students rooms g k) hndFY
  · by_cases hne : students = []
    · subst hne
      rw [Uni.empty_run]
      simp
    · have hlab := (Uni.run_writes_spec students rooms).2.1
      have hndU : (((List.insertionSort sidLe students).map Uni.clearFields).map
          (fun s => s.student_id)).Nodup := by
        rw [List.map_map]
        have heq : (List.insertionSort sidLe students).map
            ((fun s : Student => s.student_id) ∘ Uni.clearFields) =
            (List.insertionSort sidLe students).map (fun s => s.student_id) := rfl
        rw [heq]
        exact ((List.perm_insertionSort sidLe students).map _).nodup_iff.mpr hnd
      have hpops := pops_nodup_ids_of_decomp (fun s : Student => s.dept) _ _ _
        (fun k => Uni.run_pop_decomp students rooms hne k) hndU
      rw [List.map_map] at hpops
      have hcongr : (Uni.allocate_university_seating students rooms).2.map
          (fun w => w.student_id) =
          (Uni.allocate_university_seating students rooms).2.map
          (fun w => w.student.student_id) :=
        List.map_congr_left (fun w hw => (hlab w hw).2)
      rw [hcongr]
      exact hpops

/-- Closed instance of the C2 theorem, its hypothesis checked by `decide`
at a concrete three-student input. -/
theorem c2_no_double_seating_witness :
    ((Reg.allocate_exam_seating_for_db
        [⟨"S1", "CSE", 1, "A", none, none⟩, ⟨"S2", "CSE", 1, "A", none, none⟩,
         ⟨"S3", "ECE", 1, "A", none, none⟩]
        [⟨"R1", 4, 2, 2⟩] (fun _ => 0)).writes.map (fun w => w.student_id)).Nodup ∧
    ((FY.allocate_firstyear_seating
        [⟨"S1", "CSE", 1, "A", none, none⟩, ⟨"S2", "CSE", 1, "A", none, none⟩,
         ⟨"S3", "ECE", 1, "A", none, none⟩]
        [⟨"R1", 4, 2, 2⟩] (fun _ => 0)).writes.map (fun w => w.student_id)).Nodup ∧
    ((Uni.allocate_university_seating
        [⟨"S1", "CSE", 1, "A", none, none⟩, ⟨"S2", "CSE", 1, "A", none, none⟩,
         ⟨"S3", "ECE", 1, "A", none, none⟩]
        [⟨"R1", 4, 2, 2⟩]).2.map (fun w => w.student_id)).Nodup :=
  c2_no_double_seating
    [⟨"S1", "CSE", 1, "A", none, none⟩, ⟨"S2", "CSE", 1, "A", none, none⟩,
     ⟨"S3", "ECE", 1, "A", none, none⟩]
    [⟨"R1", 4, 2, 2⟩] (fun _ => 0) (by decide)

/-- C3: in every strategy each cohort's queue is consumed strictly
front-to-back — the students a run seats from one cohort are an initial
segment of that cohort's fetched queue (so none is skipped or reordered)
and come out in ascending `student_id` order — and a column- or row-filling
cohort is only ever selected with a non-empty queue. -/
theorem c3_fifo_consumption (students : List Student) (rooms : List Room) (g : RNG) :
    (∀ k, (∃ m, ((Reg.allocate_exam_seating_for_db students rooms g).pops.filter
          (fun p => decide (p.key = k))).map (fun p => p.student) =
        (glookup (Reg._fetch_unallocated_students students) k).take m) ∧
      List.Pairwise sidLe
        (((Reg.allocate_exam_seating_for_db students rooms g).pops.filter
          (fun p => decide (p.key = k))).map (fun p => p.student))) ∧
    (∀ e ∈ (Reg.allocate_exam_seating_for_db students rooms g).starts,
      e.hadStudents = true) ∧
    (∀ k, (∃ m, ((FY.allocate_firstyear_seating students rooms g).pops.filter
          (fun p => decide (p.key = k))).map (fun p => p.student) =
        (glookup (FY._fetch_unallocated_students students) k).take m) ∧
      List.Pairwise sidLe
        (((FY.allocate_firstyear_seating students rooms g).pops.filter
          (fun p => decide (p.key = k))).map (fun p => p.student))) ∧
    (∀ e ∈ (FY.allocate_firstyear_seating students rooms g).starts,
      e.hadStudents = true) ∧
    (∀ k, (∃ m, ((Uni.allocate_university_seating students rooms).2.filter
          (fun w => decide (w.dept = k))).map (fun w => w.student) =
        (glookup (Uni.uniDeptQueues students) k).take m) ∧
      List.Pairwise sidLe
        (((Uni.allocate_university_seating students rooms).2.filter
          (fun w => decide (w.dept = k))).map (fun w => w.student))) := by
  refine ⟨?_, ?_, ?_, ?_, ?_⟩
  · intro k
    refine ⟨?_, ?_⟩
    · exact pops_prefix_of_decomp Reg.groupKeyOf _ _ _
        (fun k2 => Reg.reg_run_decomp students rooms g k2) k
    · exact pops_sorted_of_decomp Reg.groupKeyOf _ _ _
        (fun k2 => Reg.reg_run_decomp students rooms g k2)
        (fun k2 => Reg.reg_queue_sorted students k2) k
  · intro e he
    exact (Reg.reg_run_starts_spec students rooms g e he).1
  · intro k
    refine ⟨?_, ?_⟩
    · exact pops_prefix_of_decomp (fun s : Student => upper s.dept) _ _ _
        (fun k2 => FY.fy_run_decomp students rooms g k2) k
    · exact pops_sorted_of_decomp (fun s : Student => upper s.dept) _ _ _
        (fun k2 => FY.fy_run_decomp students rooms g k2)
        (fun k2 => FY.fy_queue_sorted students k2) k
  · intro e he
    exact (FY.fy_run_starts_spec students rooms g e he).1
  · intro k
    by_cases hne : students = []
    · subst hne
      rw [Uni.empty_run]
      exact ⟨⟨0, rfl⟩, List.Pairwise.nil⟩
    · have hpre := pops_prefix_of_decomp (fun s : Student => s.dept)
        ((List.insertionSort sidLe students).map Uni.clearFields)
        ((Uni.allocate_university_seating students rooms).2.map
          (fun w => (⟨w.dept, w.student, w.col_index, w.row_index⟩ : Pop String))) _
        (fun k2 => Uni.run_pop_decomp students rooms hne k2) k
      have hsor := pops_sorted_of_decomp (fun s : Student => s.dept)
        ((List.insertionSort sidLe students).map Uni.clearFields)
        ((Uni.allocate_university_seating students rooms).2.map
          (fun w => (⟨w.dept, w.student, w.col_index, w.row_index⟩ : Pop String))) _
        (fun k2 => Uni.run_pop_decomp students rooms hne k2)
        (fun k2 => Uni.uni_queue_sorted students k2) k
      rw [List.filter_map, List.map_map] at hpre hsor
      exact ⟨hpre, hsor⟩

/-- C7: the university strategy uses no randomness — the allocation is a
function of the student set and room set alone: any two runs on permuted
inputs (with distinct student identifiers and distinct room identifiers)
produce identical status strings and identical write logs, so every
student receives the same room and seat label in both runs. -/
theorem c7_university_deterministic (students students2 : List Student)
    (rooms rooms2 : List Room) (hps : students.Perm students2)
    (hpr : rooms.Perm rooms2)
    (hnds : (students.map (fun s => s.student_id)).Nodup)
    (hndr : (rooms.map (fun rm => rm.room_no)).Nodup) :
    Uni.allocate_university_seating students rooms =
      Uni.allocate_university_seating students2 rooms2 := by
  have hsortS : List.insertionSort sidLe students = List.insertionSort sidLe students2 :=
    sort_canonical (fun s : Student => s.student_id) sidLe
      (fun a b => strLe_iff a.student_id b.student_id) hps hnds
  have hsortR : List.insertionSort roomLe rooms = List.insertionSort roomLe rooms2 :=
    sort_canonical (fun rm : Room => rm.room_no) roomLe
      (fun a b => strLe_iff a.room_no b.room_no) hpr hndr
  unfold Uni.allocate_university_seating Uni.uniInitState Uni.uniDeptList Uni.uniDeptQueues
  rw [hsortS, hsortR]

/-- Closed instance of the C7 theorem: both input lists are reversed and
all four hypotheses are checked by `decide`. -/
theorem c7_university_deterministic_witness :
    Uni.allocate_university_seating
        [⟨"S1", "CSE", 1, "A", none, none⟩, ⟨"S2", "ECE", 1, "A", none, none⟩]
        [⟨"R1", 4, 2, 2⟩, ⟨"R2", 2, 1, 2⟩] =
      Uni.allocate_university_seating
        [⟨"S2", "ECE", 1, "A", none, none⟩, ⟨"S1", "CSE", 1, "A", none, none⟩]
        [⟨"R2", 2, 1, 2⟩, ⟨"R1", 4, 2, 2⟩] :=
  c7_university_deterministic
    [⟨"S1", "CSE", 1, "A", none, none⟩, ⟨"S2", "ECE", 1, "A", none, none⟩]
    [⟨"S2", "ECE", 1, "A", none, none⟩, ⟨"S1", "CSE", 1, "A", none, none⟩]
    [⟨"R1", 4, 2, 2⟩, ⟨"R2", 2, 1, 2⟩] [⟨"R2", 2, 1, 2⟩, ⟨"R1", 4, 2, 2⟩]
    (by decide) (by decide) (by decide) (by decide)

/-- C8: at every point of a university run (after any number `n` of visited
grid cells), if the two slot pointers name the same department then every
other listed department's queue is empty — the slots converge only when a
single department has students left, and never while an alternative
non-empty department exists. -/
theorem c8_slots_never_converge (students : List Student) (rooms : List Room)
    (n : Nat) (hne : students ≠ [])
    (heq : (Uni.uniMidState students rooms n).dept_list.getD
        (Uni.uniMidState students rooms n).active_slots.1 "" =
      (Uni.uniMidState students rooms n).dept_list.getD
        (Uni.uniMidState students rooms n).active_slots.2 "")
    (d : String) (hd : d ∈ (Uni.uniMidState students rooms n).dept_list)
    (hdne : d ≠ (Uni.uniMidState students rooms n).dept_list.getD
        (Uni.uniMidState students rooms n).active_slots.1 "") :
    glookup (Uni.uniMidState students rooms n).dept_queues d = [] := by
  have hne2 : Uni.uniDeptList students ≠ [] :=
    fun hc => hne ((Uni.uniDeptList_eq_nil students).mp hc)
  rcases Uni.uniRun_inv ((Uni.uniCells (List.insertionSort roomLe rooms)).take n)
      (Uni.uniInitState students) (Uni.uniInit_wf students hne2)
      (Uni.uniInit_slotsInv students) with ⟨hwf, hinv, hdl⟩
  rcases hwf with ⟨_, _, hb1, hb2⟩
  have hdlnd : (Uni.uniMidState students rooms n).dept_list.Nodup := by
    show (Uni.uniRunCells (Uni.uniInitState students)
      ((Uni.uniCells (List.insertionSort roomLe rooms)).take n)).dept_list.Nodup
    rw [hdl]
    exact Uni.uniDeptList_nodup students
  have hb1' : (Uni.uniMidState students rooms n).active_slots.1 <
      (Uni.uniMidState students rooms n).dept_list.length := hb1
  have hb2' : (Uni.uniMidState students rooms n).active_slots.2 <
      (Uni.uniMidState students rooms n).dept_list.length := hb2
  have hg1 : (Uni.uniMidState students rooms n).dept_list.getD
      (Uni.uniMidState students rooms n).active_slots.1 "" =
      (Uni.uniMidState students rooms n).dept_list.get
        ⟨(Uni.uniMidState students rooms n).active_slots.1, hb1'⟩ := by
    rw [List.getD_eq_getElem _ _ hb1']
    rfl
  have hg2 : (Uni.uniMidState students rooms n).dept_list.getD
      (Uni.uniMidState students rooms n).active_slots.2 "" =
      (Uni.uniMidState students rooms n).dept_list.get
        ⟨(Uni.uniMidState students rooms n).active_slots.2, hb2'⟩ := by
    rw [List.getD_eq_getElem _ _ hb2']
    rfl
  have hidx : (Uni.uniMidState students rooms n).active_slots.1 =
      (Uni.uniMidState students rooms n).active_slots.2 := by
    rw [hg1, hg2] at heq
    exact congrArg Fin.val ((List.Nodup.get_inj_iff hdlnd).mp heq)
  rcases List.mem_iff_getElem.mp hd with ⟨j, hj, hdj⟩
  have hjne : j ≠ (Uni.uniMidState students rooms n).active_slots.1 := by
    intro hc
    apply hdne
    subst hc
    rw [← hdj]
    exact (List.getD_eq_getElem _ _ hb1').symm
  have hres : glookup (Uni.uniMidState students rooms n).dept_queues
      ((Uni.uniMidState students rooms n).dept_list.getD j "") = [] :=
    hinv hidx j hj hjne
  have hgj : (Uni.uniMidState students rooms n).dept_list.getD j "" = d := by
    rw [← hdj]
    exact List.getD_eq_getElem _ _ hj
  rw [hgj] at hres
  exact hres

/-- Closed instance of the C8 theorem: a run in which the CSE queue (one
student) is exhausted and both slots converge on ECE; all four hypotheses
are checked by `decide` on the concrete mid-run state. -/
theorem c8_slots_never_converge_witness :
    glookup (Uni.uniMidState
      [⟨"C1", "CSE", 1, "A", none, none⟩, ⟨"E1", "ECE", 1, "A", none, none⟩,
       ⟨"E2", "ECE", 1, "A", none, none⟩, ⟨"E3", "ECE", 1, "A", none, none⟩]
      [⟨"R1", 4, 2, 2⟩] 4).dept_queues "CSE" = [] :=
  c8_slots_never_converge
    [⟨"C1", "CSE", 1, "A", none, none⟩, ⟨"E1", "ECE", 1, "A", none, none⟩,
     ⟨"E2", "ECE", 1, "A", none, none⟩, ⟨"E3", "ECE", 1, "A", none, none⟩]
    [⟨"R1", 4, 2, 2⟩] 4 (by decide) (by decide) "CSE" (by decide) (by decide)

/-- C4 (amended): when the chosen cohort's queue empties mid-column, the
re-selection does NOT re-run the start-of-column tiers.  The regular filler
picks among the non-empty cohorts compatible with the current row's left
neighbor and breaks when none exists (it has no fallback tier mid-column);
the first-year filler tries tier 1 (compatible with the current row's left
neighbor) and otherwise falls directly through to "any non-empty cohort",
skipping tier 2 ("any non-empty cohort different from the left
neighbor"), and breaks only when every cohort is empty. -/
theorem c4_mid_column_reselection (ks : List Reg.GroupKey) (fks : List FY.GroupKey)
    (qs : Groups Reg.GroupKey) (fqs : Groups FY.GroupKey)
    (grid fgrid : Grid) (r c : Nat) (g : RNG) :
    (∀ k g2, Reg.midSelect ks qs grid r c g = some (k, g2) →
      k ∈ Reg.nonEmptyKeys ks qs ∧ Reg.keyOk k (leftNbrAt grid r c) = true) ∧
    (Reg.midSelect ks qs grid r c g = none ↔
      (Reg.nonEmptyKeys ks qs).filter
        (fun gk => Reg.keyOk gk (leftNbrAt grid r c)) = []) ∧
    (∀ k g2, FY.midSelect fks fqs fgrid r c g = some (k, g2) →
      k ∈ FY.tier1Depts fks fqs (leftNbrAt fgrid r c) ∨
        (FY.tier1Depts fks fqs (leftNbrAt fgrid r c) = [] ∧
          k ∈ FY.nonEmptyDepts fks fqs)) ∧
    (FY.midSelect fks fqs fgrid r c g = none ↔ FY.nonEmptyDepts fks fqs = []) := by
  refine ⟨?_, ?_, ?_, ?_⟩
  · intro k g2 h
    unfold Reg.midSelect at h
    cases hch : choice ((Reg.nonEmptyKeys ks qs).filter
        (fun gk => Reg.keyOk gk (leftNbrAt grid r c))) g with
    | none =>
      rw [hch] at h
      cases h
    | some k0 =>
      rw [hch] at h
      simp only [Option.some.injEq, Prod.mk.injEq] at h
      rcases h with ⟨hk, _⟩
      subst hk
      have hm := choice_mem hch
      rw [List.mem_filter] at hm
      exact ⟨hm.1, hm.2⟩
  · unfold Reg.midSelect
    cases hch : choice ((Reg.nonEmptyKeys ks qs).filter
        (fun gk => Reg.keyOk gk (leftNbrAt grid r c))) g with
    | none =>
      simp only []
      exact ⟨fun _ => (choice_eq_none _ _).mp hch, fun _ => trivial⟩
    | some k0 =>
      simp only []
      constructor
      · intro h
        cases h
      · intro h
        rw [h] at hch
        rw [(choice_eq_none [] g).mpr rfl] at hch
        cases hch
  · intro k g2 h
    unfold FY.midSelect at h
    cases hch1 : choice (FY.tier1Depts fks fqs (leftNbrAt fgrid r c)) g with
    | some k0 =>
      rw [hch1] at h
      simp only [Option.some.injEq, Prod.mk.injEq] at h
      rcases h with ⟨hk, _⟩
      subst hk
      exact Or.inl (choice_mem hch1)
    | none =>
      rw [hch1] at h
      cases hch2 : choice (FY.nonEmptyDepts fks fqs) g with
      | none =>
        rw [hch2] at h
        cases h
      | some k0 =>
        rw [hch2] at h
        simp only [Option.some.injEq, Prod.mk.injEq] at h
        rcases h with ⟨hk, _⟩
        subst hk
        exact Or.inr ⟨(choice_eq_none _ _).mp hch1, choice_mem hch2⟩
  · unfold FY.midSelect
    cases hch1 : choice (FY.tier1Depts fks fqs (leftNbrAt fgrid r c)) g with
    | some k0 =>
      simp only []
      constructor
      · intro h
        cases h
      · intro h
        have ht1 : FY.tier1Depts fks fqs (leftNbrAt fgrid r c) = [] := by
          apply List.eq_nil_iff_forall_not_mem.mpr
          intro x hx
          unfold FY.tier1Depts at hx
          rw [List.mem_filter, Bool.and_eq_true] at hx
          have hx2 : x ∈ FY.nonEmptyDepts fks fqs := by
            unfold FY.nonEmptyDepts
            rw [List.mem_filter]
            exact ⟨hx.1, hx.2.1⟩
          rw [h] at hx2
          cases hx2
        rw [ht1] at hch1
        rw [(choice_eq_none [] g).mpr rfl] at hch1
        cases hch1
    | none =>
      cases hch2 : choice (FY.nonEmptyDepts fks fqs) g with
      | none =>
        simp only []
        exact ⟨fun _ => (choice_eq_none _ _).mp hch2, fun _ => trivial⟩
      | some k0 =>
        simp only []
        constructor
        · intro h
          cases h
        · intro h
          rw [h] at hch2
          rw [(choice_eq_none [] g).mpr rfl] at hch2
          cases hch2

/-- C4 counterexample: a concrete first-year hall where the source's
mid-column re-selection and the spec-modelled full-tier re-selection
diverge.  Queues: ECE = [E1, E2, E3], EEE = [F1], CSE = [C1]; room 2 x 2;
first stream value always 0.  Both fill A1 = E1, A2 = E2, B1 = C1; CSE then
empties mid-column with left neighbor E2 (ECE).  Tier 1 is empty (ECE is
the same department, EEE is forbidden next to ECE), so the source skips to
"any non-empty cohort" and seats E3 — an ECE student directly beside ECE —
while the spec's tier 2 ("any non-empty cohort different from the left
neighbor") would seat F1. -/
theorem c4_mid_column_reselection_counterexample :
    ((FY._assign_seats_for_hall ⟨"R1", 4, 2, 2⟩ ["ECE", "EEE", "CSE"]
        [("ECE", [⟨"E1", "ECE", 1, "A", none, none⟩, ⟨"E2", "ECE", 1, "A", none, none⟩,
                  ⟨"E3", "ECE", 1, "A", none, none⟩]),
         ("EEE", [⟨"F1", "EEE", 1, "A", none, none⟩]),
         ("CSE", [⟨"C1", "CSE", 1, "A", none, none⟩])] (fun _ => 0)).pops.map
      (fun p => (p.student.student_id, p.col_index, p.row_index)) =
      [("E1", 0, 0), ("E2", 0, 1), ("C1", 1, 0), ("E3", 1, 1)]) ∧
    ((FY.assign_seats_for_hall_spec ⟨"R1", 4, 2, 2⟩ ["ECE", "EEE", "CSE"]
        [("ECE", [⟨"E1", "ECE", 1, "A", none, none⟩, ⟨"E2", "ECE", 1, "A", none, none⟩,
                  ⟨"E3", "ECE", 1, "A", none, none⟩]),
         ("EEE", [⟨"F1", "EEE", 1, "A", none, none⟩]),
         ("CSE", [⟨"C1", "CSE", 1, "A", none, none⟩])] (fun _ => 0)).pops.map
      (fun p => (p.student.student_id, p.col_index, p.row_index)) =
      [("E1", 0, 0), ("E2", 0, 1), ("C1", 1, 0), ("F1", 1, 1)]) := by decide

/-- C5 (amended): in the regular and first-year strategies, a column whose
start-of-column selection did not fall back to a looser tier is compatible
with the left column: the chosen cohort satisfies the strategy's
compatibility predicate against the row-0 left neighbor.  (A column whose
start-of-column selection itself fell back — which is not a mid-column
switch — carries no such guarantee; see the counterexample.) -/
theorem c5_adjacent_compatibility (students : List Student) (rooms : List Room)
    (g : RNG) :
    (∀ e ∈ (Reg.allocate_exam_seating_for_db students rooms g).starts,
      e.fellBack = false → ∀ s, e.left0 = some s →
        Reg.keyOk e.chosen (some s) = true) ∧
    (∀ e ∈ (FY.allocate_firstyear_seating students rooms g).starts,
      e.fellBack = false → ∀ d, FY.deptOf e.left0 = some d →
        FY.is_compatible e.chosen d = true) :=
  ⟨fun e he => (Reg.reg_run_starts_spec students rooms g e he).2,
   fun e he => (FY.fy_run_starts_spec students rooms g e he).2⟩

/-- C5 counterexample: a first-year run (four CSE students, one 2 x 2 room,
first stream value always 0) in which no mid-column switch ever occurs —
every pop carries its column's start cohort, CSE — yet the two adjacent
column-defining cohorts are incompatible: column 1's start record shows
left-neighbor department CSE with `is_compatible "CSE" "CSE" = false`.
The incompatible adjacency comes from the start-of-column fallback tier
(`fellBack = true`), which the claim's "mid-column forced switch" proviso
does not cover. -/
theorem c5_adjacent_compatibility_counterexample :
    ((FY.allocate_firstyear_seating
        [⟨"S1", "CSE", 1, "A", none, none⟩, ⟨"S2", "CSE", 1, "A", none, none⟩,
         ⟨"S3", "CSE", 1, "A", none, none⟩, ⟨"S4", "CSE", 1, "A", none, none⟩]
        [⟨"R1", 4, 2, 2⟩] (fun _ => 0)).pops.map
      (fun p => (p.key, p.col_index, p.row_index)) =
      [("CSE", 0, 0), ("CSE", 0, 1), ("CSE", 1, 0), ("CSE", 1, 1)]) ∧
    ((FY.allocate_firstyear_seating
        [⟨"S1", "CSE", 1, "A", none, none⟩, ⟨"S2", "CSE", 1, "A", none, none⟩,
         ⟨"S3", "CSE", 1, "A", none, none⟩, ⟨"S4", "CSE", 1, "A", none, none⟩]
        [⟨"R1", 4, 2, 2⟩] (fun _ => 0)).starts.map
      (fun e => (e.col_index, e.chosen, e.fellBack,
        (FY.deptOf e.left0).map (FY.is_compatible e.chosen))) =
      [(0, "CSE", false, none), (1, "CSE", true, some false)]) := by decide

/-- C9 (amended): the regular and first-year strategies treat "no
unallocated students or no rooms" as a silent no-op — the run returns an
empty result with no writes.  The university strategy returns an empty
result when there are no students at all (or no rooms: no seat writes are
emitted), but it is not a no-op on the student store: it unconditionally
clears every student's room/seat fields before its guards, so prior
allocations are erased even when nothing is allocated. -/
theorem c9_empty_input_noop (students : List Student) (rooms : List Room) (g : RNG) :
    ((students.filter (fun s => s.room_no.isNone) = [] ∨ rooms = []) →
      (Reg.allocate_exam_seating_for_db students rooms g).writes = [] ∧
      (Reg.allocate_exam_seating_for_db students rooms g).halls = [] ∧
      (FY.allocate_firstyear_seating students rooms g).writes = [] ∧
      (FY.allocate_firstyear_seating students rooms g).halls = []) ∧
    Uni.allocate_university_seating [] rooms = ("No students found.", []) ∧
    (Uni.allocate_university_seating students []).2 = [] ∧
    Uni.uniFinalStore students [] = students.map Uni.clearFields := by
  have hw : (Uni.allocate_university_seating students []).2 = [] := by
    unfold Uni.allocate_university_seating
    split
    · rfl
    · rfl
  refine ⟨?_, Uni.empty_run rooms, hw, ?_⟩
  · rintro (hs | hr)
    · have hfet : Reg._fetch_unallocated_students students = [] := by
        unfold Reg._fetch_unallocated_students
        rw [hs]
        rfl
      have hfet2 : FY._fetch_unallocated_students students = [] := by
        unfold FY._fetch_unallocated_students
        rw [hs]
        rfl
      unfold Reg.allocate_exam_seating_for_db FY.allocate_firstyear_seating
      rw [hfet, hfet2]
      simp
    · subst hr
      unfold Reg.allocate_exam_seating_for_db FY.allocate_firstyear_seating
      simp
  · unfold Uni.uniFinalStore
    rw [hw]
    rfl

/-- C9 counterexample: with one already-seated student and no rooms
configured, the university run leaves no student untouched — the
unconditional `update_many` of line 14 clears the student's room and seat
before the room loop has anything to do, so the store after the run
differs from the store before it. -/
theorem c9_empty_input_noop_counterexample :
    Uni.uniFinalStore [⟨"S1", "CSE", 1, "A", some "R9", some "A1"⟩] [] ≠
      [⟨"S1", "CSE", 1, "A", some "R9", some "A1"⟩] := by decide
